import Mathlib

/-!
Verification of the webarchiver deduplication engine (`index.js`) against its
natural-language specification.  Strings are embedded as `List Char`
(the byte/char sequence of the JS string); JS objects holding records become
Lean structures; the mutable stores become explicit state passed through the
functions.  Every definition is translated from the JS source; the source
function it embeds is named in its doc comment.
-/

set_option maxRecDepth 10000

namespace Webarchiver

abbrev Str := List Char
abbrev Frags := List Str

/-! ## Fragmenter (`createFragments`, index.js 490-499)

The source splits on the regex `([S]?[^SE]*[E]?){1}` (S = `startsWith`
characters, E = `endsWith` characters) and keeps the non-empty pieces.
`String.split` on a regex whose every match is non-empty returns the
captured groups (here: the whole match) separated by empty between-pieces,
so the result is exactly the greedy left-to-right decomposition: each
fragment is one optional leading-set character, then a maximal run of
characters outside both sets, then one optional trailing-set character.
`takeBody` is the `[^SE]*` part, `oneFragment` one regex match,
`createFragmentsAux` the repeated global matching, and `createFragments`
adds the `.filter(Boolean)` of the source. -/

/-- Maximal run of characters outside both boundary sets (the `[^SE]*` part
of the `createFragments` regex). Returns the run and the rest. -/
def takeBody (lead trail : List Char) : Str → Str × Str
  | [] => ([], [])
  | c :: cs =>
    if c ∈ lead ∨ c ∈ trail then ([], c :: cs)
    else
      let (b, r) := takeBody lead trail cs
      (c :: b, r)

/-- Optional single trailing-set character (the `[E]?` part of the
`createFragments` regex). -/
def takeTrail (trail : List Char) : Str → Str × Str
  | [] => ([], [])
  | d :: ds => if d ∈ trail then ([d], ds) else ([], d :: ds)

/-- One match of the `createFragments` regex `[S]?[^SE]*[E]?` starting at the
head of `s`: optional leading-set character, body, optional trailing-set
character.  Returns the fragment and the unconsumed rest. -/
def oneFragment (lead trail : List Char) (s : Str) : Str × Str :=
  match s with
  | [] => ([], [])
  | c :: cs =>
    let (ld, rest1) := if c ∈ lead then ([c], cs) else (([] : Str), c :: cs)
    let (bd, rest2) := takeBody lead trail rest1
    let (tl, rest3) := takeTrail trail rest2
    (ld ++ bd ++ tl, rest3)

/-- Repeated global matching of the `createFragments` regex; `fuel` bounds the
number of matches (each match consumes at least one character, so
`fuel = s.length` suffices). -/
def createFragmentsAux (lead trail : List Char) : Nat → Str → Frags
  | 0, _ => []
  | _, [] => []
  | fuel + 1, c :: cs =>
    let (f, r) := oneFragment lead trail (c :: cs)
    f :: createFragmentsAux lead trail fuel r

/-- Translation of `createFragments` (index.js 490-499): split into
boundary-aligned fragments, dropping empties (`.filter(Boolean)`). -/
def createFragments (lead trail : List Char) (s : Str) : Frags :=
  (createFragmentsAux lead trail s.length s).filter (fun f => f ≠ [])

theorem takeBody_append (lead trail : List Char) (s : Str) :
    (takeBody lead trail s).1 ++ (takeBody lead trail s).2 = s := by
  induction s with
  | nil => simp [takeBody]
  | cons c cs ih =>
    simp only [takeBody]
    by_cases h : c ∈ lead ∨ c ∈ trail
    · simp [h]
    · simp [h, ih]

theorem takeTrail_append (trail : List Char) (s : Str) :
    (takeTrail trail s).1 ++ (takeTrail trail s).2 = s := by
  cases s with
  | nil => simp [takeTrail]
  | cons d ds =>
    simp only [takeTrail]
    by_cases hd : d ∈ trail
    · simp [hd]
    · simp [hd]

theorem oneFragment_append (lead trail : List Char) (s : Str) :
    (oneFragment lead trail s).1 ++ (oneFragment lead trail s).2 = s := by
  cases s with
  | nil => simp [oneFragment]
  | cons c cs =>
    simp only [oneFragment]
    by_cases hc : c ∈ lead
    · have h1 := takeTrail_append trail (takeBody lead trail cs).2
      have h2 := takeBody_append lead trail cs
      simp only [hc, if_true, List.append_assoc, List.cons_append, List.nil_append,
        List.singleton_append]
      rw [h1, h2]
    · have h1 := takeTrail_append trail (takeBody lead trail (c :: cs)).2
      have h2 := takeBody_append lead trail (c :: cs)
      simp only [hc, if_false, List.append_assoc, List.nil_append]
      rw [h1, h2]

theorem oneFragment_ne_nil (lead trail : List Char) (c : Char) (cs : Str) :
    (oneFragment lead trail (c :: cs)).1 ≠ [] := by
  simp only [oneFragment]
  by_cases hc : c ∈ lead
  · simp [hc]
  · by_cases hct : c ∈ trail
    · simp [hc, takeBody, hct, takeTrail]
    · simp [hc, takeBody, hct]

theorem oneFragment_rest_lt (lead trail : List Char) (c : Char) (cs : Str) :
    (oneFragment lead trail (c :: cs)).2.length < (c :: cs).length := by
  have happ := oneFragment_append lead trail (c :: cs)
  have hne := oneFragment_ne_nil lead trail c cs
  have hlen : (oneFragment lead trail (c :: cs)).1.length
      + (oneFragment lead trail (c :: cs)).2.length = (c :: cs).length := by
    rw [← List.length_append, happ]
  have hpos : 0 < (oneFragment lead trail (c :: cs)).1.length :=
    List.length_pos.mpr hne
  omega

theorem createFragmentsAux_join (lead trail : List Char) (fuel : Nat) (s : Str)
    (h : s.length ≤ fuel) : (createFragmentsAux lead trail fuel s).flatten = s := by
  induction fuel generalizing s with
  | zero =>
    cases s with
    | nil => simp [createFragmentsAux]
    | cons c cs => simp at h
  | succ fuel ih =>
    cases s with
    | nil => simp [createFragmentsAux]
    | cons c cs =>
      simp only [createFragmentsAux, List.flatten_cons]
      have hlt := oneFragment_rest_lt lead trail c cs
      have hr : (oneFragment lead trail (c :: cs)).2.length ≤ fuel := by
        simp only [List.length_cons] at hlt h
        omega
      rw [ih _ hr]
      exact oneFragment_append lead trail (c :: cs)

theorem join_filter_ne_nil (L : List Str) :
    (L.filter (fun f => f ≠ [])).flatten = L.flatten := by
  induction L with
  | nil => rfl
  | cons x xs ih =>
    by_cases hx : x = []
    · subst hx; simpa [List.filter] using ih
    · simp only [List.filter, List.flatten_cons]
      simp only [ne_eq, hx, not_false_eq_true, decide_True, List.flatten_cons, ih]

/-- C3: for every input string and disjoint boundary sets, the concatenation
of the Fragmenter's output is exactly the input, and every produced fragment
is non-empty. -/
theorem createFragments_roundtrip (lead trail : List Char) (s : Str)
    (hdisj : ∀ c, c ∈ lead → c ∉ trail) :
    (createFragments lead trail s).flatten = s ∧
      ∀ f ∈ createFragments lead trail s, f ≠ [] := by
  constructor
  · unfold createFragments
    rw [join_filter_ne_nil]
    exact createFragmentsAux_join lead trail s.length s (Nat.le_refl _)
  · intro f hf
    unfold createFragments at hf
    have := List.of_mem_filter hf
    simpa using this

/-- Witness for C3 at a concrete input: the HTML boundary sets of the test
suite, applied to a small markup string. -/
theorem createFragments_roundtrip_witness :
    (∀ c, c ∈ ['<'] → c ∉ ['>', '\n']) ∧
      (createFragments ['<'] ['>', '\n'] "<a>bc</a>".data).flatten = "<a>bc</a>".data ∧
      ∀ f ∈ createFragments ['<'] ['>', '\n'] "<a>bc</a>".data, f ≠ [] :=
  ⟨by decide,
   (createFragments_roundtrip ['<'] ['>', '\n'] "<a>bc</a>".data (by decide)).1,
   (createFragments_roundtrip ['<'] ['>', '\n'] "<a>bc</a>".data (by decide)).2⟩

/-! ## Escaping (`addSlashes`, index.js 459-461)

The source is `(str + '').replace(/\\/g, '\\').replace(/'/g, "\\'")`.
In JavaScript the replacement string `'\\'` denotes a single backslash, so
the first `replace` maps each backslash to a single backslash (a no-op); the
second maps each single quote to backslash-quote.  `phpSingleQuoteBody`
models the consumer: the PHP reader of a single-quoted string literal, which
reads `\\` as a backslash, `\'` as a quote, stops at an unescaped quote
(end of the literal), and takes every other character verbatim. -/

/-- The first `replace(/\\/g, '\\')` of `addSlashes`: each backslash is
replaced by the single-character replacement string. -/
def replaceBackslash (s : Str) : Str :=
  (s.map (fun c => if c = '\\' then ['\\'] else [c])).flatten

/-- The second `replace(/'/g, "\\'")` of `addSlashes`: each single quote is
replaced by backslash-quote. -/
def replaceQuote (s : Str) : Str :=
  (s.map (fun c => if c = '\'' then ['\\', '\''] else [c])).flatten

/-- Translation of `addSlashes` (index.js 459-461). -/
def addSlashes (s : Str) : Str := replaceQuote (replaceBackslash s)

/-- How PHP reads the body of a single-quoted string literal: `\\` yields a
backslash, `\'` yields a quote, an unescaped quote terminates the literal,
anything else is verbatim.  This is the serve-time preprocessing step that
the round-trip requirement of the spec refers to. -/
def phpSingleQuoteBody : Str → Str
  | [] => []
  | '\\' :: '\\' :: r => '\\' :: phpSingleQuoteBody r
  | '\\' :: '\'' :: r => '\'' :: phpSingleQuoteBody r
  | '\'' :: _ => []
  | c :: r => c :: phpSingleQuoteBody r

/-- C1 (code bug): on the two-character input consisting of two backslashes,
`addSlashes` leaves the backslashes untouched (they are not doubled — the
first `replace` is a no-op), and undoing PHP single-quoted-string escaping
on the result yields a single backslash, not the original string: the
round-trip fails.  The quote, by contrast, is escaped as the claim states. -/
theorem addSlashes_backslash_not_escaped :
    addSlashes ['\\', '\\'] = ['\\', '\\'] ∧
      (addSlashes ['\\', '\\']).count '\\' = 2 ∧
      phpSingleQuoteBody (addSlashes ['\\', '\\']) = ['\\'] ∧
      phpSingleQuoteBody (addSlashes ['\\', '\\']) ≠ ['\\', '\\'] ∧
      addSlashes ['\''] = ['\\', '\''] := by
  refine ⟨by decide, by decide, by decide, by decide, by decide⟩

/-! ## Identifier Allocator (`nextVarName`, index.js 598-623)

The source walks backward from the last character: while the character is
`'z'` it is flipped (one `'0'` is appended per flipped position); the first
non-`'z'` character is incremented (`'9'` becomes `'a'`, otherwise char
code + 1).  If every character flips the result is `'a'` followed by one
`'0'` per original character.  Walking backward over the string is exactly
structural recursion on the reversed character list, which `nvnRev`
performs; `nextVarName` wraps it between the two reversals. -/

/-- Char-code increment, `String.fromCharCode(str.charCodeAt(change) + 1)`. -/
def succChar (c : Char) : Char := Char.ofNat (c.toNat + 1)

/-- One backward step of `nextVarName` on the reversed name: a `'z'` flips to
`'0'` and the walk continues; a non-`'z'` character is incremented (with the
`9 -> a` rule) and the walk stops; running off the front (every character
was `'z'`) prepends the new leading `'a'`. -/
def nvnRev : Str → Str
  | [] => ['a']
  | c :: rest =>
    if c = 'z' then '0' :: nvnRev rest
    else (if c = '9' then 'a' else succChar c) :: rest

/-- Translation of `nextVarName` (index.js 598-623). -/
def nextVarName (s : Str) : Str := (nvnRev s.reverse).reverse

/-- C7: the allocator's carry rules at the five specified inputs, plus the
general full-overflow rule (a name of n `'z'`s steps to `'a'` followed by
n `'0'`s, growing by one character). -/
theorem nextVarName_carry_rules :
    nextVarName "z".data = "a0".data ∧
      nextVarName "ab1zde".data = "ab1zdf".data ∧
      nextVarName "abcdzz".data = "abce00".data ∧
      nextVarName "zzzzz".data = "a00000".data ∧
      nextVarName "9000".data = "9001".data ∧
      ∀ n : Nat, nextVarName (List.replicate n 'z') = 'a' :: List.replicate n '0' := by
  refine ⟨by decide, by decide, by decide, by decide, by decide, ?_⟩
  intro n
  have hrev : ∀ m : Nat, nvnRev (List.replicate m 'z') = List.replicate m '0' ++ ['a'] := by
    intro m
    induction m with
    | zero => simp [nvnRev]
    | succ m ih => simp [List.replicate_succ, nvnRev, ih]
  unfold nextVarName
  rw [List.reverse_replicate, hrev, List.reverse_append, List.reverse_replicate]
  simp

/-! ## Allocator schedule (C8)

`genName k` is the k-th identifier obtained by iterating `nextVarName` from
`"a"`.  For the analysis each name is read as a mixed-radix number over the
36-character alphabet `0-9a-z` (`dval`, `valRev`); `nvnRev` adds exactly one
to this value while the name is not all-`'z'`, and an all-`'z'` name of
length n steps to the smallest (n+1)-character name `a0...0` of value
`10 * 36 ^ n`.  `allocT n` is the total number of names of length at most n,
so names of length n + 1 are issued exactly for indices in
`[allocT n, allocT (n+1))`. -/

/-- The k-th identifier issued by the Allocator, starting from `"a"`. -/
def genName : Nat → Str
  | 0 => ['a']
  | k + 1 => nextVarName (genName k)

/-- Reversed-representation form of the iteration, used in the proofs. -/
def iterRev : Nat → Str
  | 0 => ['a']
  | k + 1 => nvnRev (iterRev k)

/-- The identifier alphabet in digit order (`'0'` = 0 … `'z'` = 35). -/
def alphabet : Str := "0123456789abcdefghijklmnopqrstuvwxyz".data

/-- The alphabetic characters, the only admissible leading characters. -/
def lowers : Str := "abcdefghijklmnopqrstuvwxyz".data

/-- Digit value of an identifier character. -/
def dval (c : Char) : Nat := alphabet.indexOf c

/-- Value of a reversed name as a little-endian base-36 number. -/
def valRev : Str → Nat
  | [] => 0
  | c :: r => dval c + 36 * valRev r

/-- A reversed name is canonical when it is non-empty, drawn from the
alphabet, and its last character (the leading character of the name) is
alphabetic. -/
def canonRev (s : Str) : Prop :=
  s ≠ [] ∧ (∀ c ∈ s, c ∈ alphabet) ∧ s.getLastD '0' ∈ lowers

instance (s : Str) : Decidable (canonRev s) := by
  unfold canonRev; infer_instance

/-- The increment step character of `nvnRev` (the `9 -> a` / char-code + 1
rule applied to the first non-`'z'` character). -/
def stepChar (c : Char) : Char := if c = '9' then 'a' else succChar c

theorem nvnRev_step (c : Char) (rest : Str) (hz : c ≠ 'z') :
    nvnRev (c :: rest) = stepChar c :: rest := by
  simp [nvnRev, hz, stepChar]

theorem stepChar_mem : ∀ c ∈ alphabet, c ≠ 'z' →
    stepChar c ∈ alphabet ∧ dval (stepChar c) = dval c + 1 := by decide

theorem stepChar_lowers : ∀ c ∈ lowers, c ≠ 'z' → stepChar c ∈ lowers := by decide

theorem dval_le : ∀ c ∈ alphabet, dval c ≤ 35 := by decide

theorem dval_eq_35 : ∀ c ∈ alphabet, dval c = 35 → c = 'z' := by decide

theorem valRev_lt (s : Str) (hs : ∀ c ∈ s, c ∈ alphabet) :
    valRev s + 1 ≤ 36 ^ s.length := by
  induction s with
  | nil => simp [valRev]
  | cons c r ih =>
    have hc := dval_le c (hs c (List.mem_cons_self c r))
    have hr := ih (fun d hd => hs d (List.mem_cons_of_mem c hd))
    simp only [valRev, List.length_cons, pow_succ]
    omega

theorem valRev_max_all_z (s : Str) (hs : ∀ c ∈ s, c ∈ alphabet)
    (h : valRev s + 1 = 36 ^ s.length) : ∀ c ∈ s, c = 'z' := by
  induction s with
  | nil => simp
  | cons c r ih =>
    have hc := dval_le c (hs c (List.mem_cons_self c r))
    have hr := valRev_lt r (fun d hd => hs d (List.mem_cons_of_mem c hd))
    simp only [valRev, List.length_cons, pow_succ] at h
    have hcz : dval c = 35 ∧ valRev r + 1 = 36 ^ r.length := by omega
    intro d hd
    rcases List.mem_cons.mp hd with hd | hd
    · exact hd ▸ dval_eq_35 c (hs c (List.mem_cons_self c r)) hcz.1
    · exact ih (fun e he => hs e (List.mem_cons_of_mem c he)) hcz.2 d hd

theorem valRev_all_z (s : Str) (h : ∀ c ∈ s, c = 'z') :
    valRev s + 1 = 36 ^ s.length := by
  induction s with
  | nil => simp [valRev]
  | cons c r ih =>
    have hc : c = 'z' := h c (List.mem_cons_self c r)
    have hr := ih (fun d hd => h d (List.mem_cons_of_mem c hd))
    subst hc
    simp only [valRev, List.length_cons, pow_succ]
    have : dval 'z' = 35 := by decide
    omega

theorem nvnRev_ne_nil (s : Str) : nvnRev s ≠ [] := by
  cases s with
  | nil => simp [nvnRev]
  | cons c rest =>
    by_cases hz : c = 'z'
    · simp [nvnRev, hz]
    · simp [nvnRev, hz]

theorem getLastD_cons_of_ne (c d : Char) (rest : Str) (h : rest ≠ []) :
    (c :: rest).getLastD d = rest.getLastD d := by
  cases rest with
  | nil => exact absurd rfl h
  | cons b bs => simp [List.getLastD_cons]

/-- `nvnRev` on a not-all-`'z'` valid name: value + 1, same length, validity
preserved. -/
theorem nvnRev_incr (s : Str) (hs : ∀ c ∈ s, c ∈ alphabet)
    (hnz : ¬ ∀ c ∈ s, c = 'z') :
    valRev (nvnRev s) = valRev s + 1 ∧
      (nvnRev s).length = s.length ∧
      (∀ c ∈ nvnRev s, c ∈ alphabet) := by
  induction s with
  | nil => exact absurd (by simp) hnz
  | cons c rest ih =>
    by_cases hz : c = 'z'
    · subst hz
      have hrest_nz : ¬ ∀ d ∈ rest, d = 'z' := by
        intro hall
        exact hnz (by
          intro d hd
          rcases List.mem_cons.mp hd with h | h
          · exact h
          · exact hall d h)
      have hrest_v : ∀ d ∈ rest, d ∈ alphabet :=
        fun d hd => hs d (List.mem_cons_of_mem _ hd)
      obtain ⟨h1, h2, h3⟩ := ih hrest_v hrest_nz
      have hnv : nvnRev ('z' :: rest) = '0' :: nvnRev rest := by simp [nvnRev]
      refine ⟨?_, ?_, ?_⟩
      · have hd0 : dval '0' = 0 := by decide
        have hdz : dval 'z' = 35 := by decide
        simp only [hnv, valRev, hd0, hdz, h1]
        omega
      · simp [hnv, h2]
      · intro d hd
        rw [hnv] at hd
        rcases List.mem_cons.mp hd with h | h
        · subst h; decide
        · exact h3 d h
    · have hc := hs c (List.mem_cons_self c rest)
      obtain ⟨hmem, hdv⟩ := stepChar_mem c hc hz
      rw [nvnRev_step c rest hz]
      refine ⟨?_, by simp, ?_⟩
      · simp only [valRev, hdv]; omega
      · intro d hd
        rcases List.mem_cons.mp hd with h | h
        · exact h ▸ hmem
        · exact hs d (List.mem_cons_of_mem _ h)

/-- `nvnRev` on a not-all-`'z'` canonical name keeps the leading character
(the last of the reversed representation) alphabetic. -/
theorem nvnRev_getLast (s : Str) (hs : ∀ c ∈ s, c ∈ alphabet)
    (hnz : ¬ ∀ c ∈ s, c = 'z') (hl : s.getLastD '0' ∈ lowers) :
    (nvnRev s).getLastD '0' ∈ lowers := by
  induction s with
  | nil => exact absurd (by simp) hnz
  | cons c rest ih =>
    by_cases hz : c = 'z'
    · subst hz
      have hrest_ne : rest ≠ [] := by
        intro h
        subst h
        exact hnz (by intro d hd; simpa using hd)
      have hrest_nz : ¬ ∀ d ∈ rest, d = 'z' := by
        intro hall
        exact hnz (by
          intro d hd
          rcases List.mem_cons.mp hd with h | h
          · exact h
          · exact hall d h)
      have hrest_v : ∀ d ∈ rest, d ∈ alphabet :=
        fun d hd => hs d (List.mem_cons_of_mem _ hd)
      have hl' : rest.getLastD '0' ∈ lowers := by
        rwa [getLastD_cons_of_ne _ _ _ hrest_ne] at hl
      have hnv : nvnRev ('z' :: rest) = '0' :: nvnRev rest := by simp [nvnRev]
      rw [hnv, getLastD_cons_of_ne _ _ _ (nvnRev_ne_nil rest)]
      exact ih hrest_v hrest_nz hl'
    · rw [nvnRev_step c rest hz]
      cases hrest : rest with
      | nil =>
        subst hrest
        exact stepChar_lowers c hl hz
      | cons b bs =>
        have hne : (b :: bs : Str) ≠ [] := by simp
        rw [getLastD_cons_of_ne _ _ _ hne]
        rw [hrest] at hl
        rwa [getLastD_cons_of_ne _ _ _ hne] at hl

theorem nvnRev_of_all_z (s : Str) (h : ∀ c ∈ s, c = 'z') :
    nvnRev s = List.replicate s.length '0' ++ ['a'] := by
  induction s with
  | nil => simp [nvnRev]
  | cons c rest ih =>
    have hc : c = 'z' := h c (List.mem_cons_self c rest)
    subst hc
    have := ih (fun d hd => h d (List.mem_cons_of_mem _ hd))
    simp [nvnRev, this, List.replicate_succ]

theorem valRev_replicate_zero_append (m : Nat) :
    valRev (List.replicate m '0' ++ ['a']) = 10 * 36 ^ m := by
  induction m with
  | zero => simp [valRev]; decide
  | succ m ih =>
    have hd0 : dval '0' = 0 := by decide
    rw [List.replicate_succ, List.cons_append]
    simp only [valRev, hd0, ih, pow_succ]
    ring

/-- `allocT n`: how many identifiers the Allocator issues before the first of
length n + 1 (the total number of names of length at most n). -/
def allocT (n : Nat) : Nat := ∑ m ∈ Finset.range n, 26 * 36 ^ m

theorem allocT_succ (n : Nat) : allocT (n + 1) = allocT n + 26 * 36 ^ n := by
  simp [allocT, Finset.sum_range_succ]

theorem allocT_mono {m n : Nat} (h : m ≤ n) : allocT m ≤ allocT n := by
  unfold allocT
  exact Finset.sum_le_sum_of_subset (Finset.range_subset.mpr h)

/-- The central window induction: the k-th name in reversed form sits in the
unique length window `[allocT n, allocT (n+1))`, has length n + 1 and value
`10 * 36 ^ n + (k - allocT n)`, and is canonical. -/
theorem iterRev_window (k : Nat) :
    ∃ n, allocT n ≤ k ∧ k < allocT (n + 1) ∧
      (iterRev k).length = n + 1 ∧
      valRev (iterRev k) = 10 * 36 ^ n + (k - allocT n) ∧
      (∀ c ∈ iterRev k, c ∈ alphabet) ∧
      (iterRev k).getLastD '0' ∈ lowers := by
  induction k with
  | zero =>
    refine ⟨0, by simp [allocT], ?_, by simp [iterRev], ?_, ?_, ?_⟩
    · rw [allocT_succ]; simp [allocT]
    · simp [iterRev, valRev]; decide
    · intro c hc; simp [iterRev] at hc; subst hc; decide
    · simp [iterRev]; decide
  | succ k ih =>
    obtain ⟨n, hT1, hT2, hlen, hval, hvalid, hlast⟩ := ih
    have hTsucc : allocT (n + 1) = allocT n + 26 * 36 ^ n := allocT_succ n
    have hstep : iterRev (k + 1) = nvnRev (iterRev k) := rfl
    by_cases hk : k + 1 < allocT (n + 1)
    · -- still inside the window: value + 1
      have hnz : ¬ ∀ c ∈ iterRev k, c = 'z' := by
        intro hall
        have := valRev_all_z (iterRev k) hall
        rw [hlen, hval] at this
        have h36 : (36 : Nat) ^ (n + 1) = 36 * 36 ^ n := by rw [pow_succ]; ring
        omega
      obtain ⟨h1, h2, h3⟩ := nvnRev_incr (iterRev k) hvalid hnz
      refine ⟨n, by omega, hk, ?_, ?_, ?_, ?_⟩
      · rw [hstep, h2, hlen]
      · rw [hstep, h1, hval]; omega
      · rw [hstep]; exact h3
      · rw [hstep]; exact nvnRev_getLast (iterRev k) hvalid hnz hlast
    · -- the window is exhausted: full overflow into the next length
      have hke : k + 1 = allocT (n + 1) := by omega
      have hallz : ∀ c ∈ iterRev k, c = 'z' := by
        apply valRev_max_all_z (iterRev k) hvalid
        rw [hlen, hval]
        have h36 : (36 : Nat) ^ (n + 1) = 36 * 36 ^ n := by rw [pow_succ]; ring
        omega
      have hov : iterRev (k + 1) = List.replicate (n + 1) '0' ++ ['a'] := by
        rw [hstep, nvnRev_of_all_z (iterRev k) hallz, hlen]
      refine ⟨n + 1, by omega, ?_, ?_, ?_, ?_, ?_⟩
      · rw [allocT_succ (n + 1)]
        have : 0 < 26 * 36 ^ (n + 1) := by positivity
        omega
      · rw [hov]; simp
      · rw [hov, valRev_replicate_zero_append]
        omega
      · intro c hc
        rw [hov] at hc
        rcases List.mem_append.mp hc with h | h
        · rw [List.eq_of_mem_replicate h]; decide
        · simp at h; subst h; decide
      · rw [hov, List.getLastD_concat]
        decide

theorem headD_reverse (l : Str) (d : Char) : l.reverse.headD d = l.getLastD d := by
  rcases hl : l.reverse with _ | ⟨x, xs⟩
  · have hnil : l = [] := by
      have := congrArg List.reverse hl
      simpa using this
    rw [hnil]; rfl
  · have hlx : l = (x :: xs).reverse := by
      have := congrArg List.reverse hl
      simpa using this
    rw [hlx]
    show x = ((x :: xs).reverse).getLastD d
    rw [List.reverse_cons, List.getLastD_concat]

theorem genName_eq_iterRev (k : Nat) : genName k = (iterRev k).reverse := by
  induction k with
  | zero => rfl
  | succ k ih =>
    show nextVarName (genName k) = (nvnRev (iterRev k)).reverse
    rw [ih]
    unfold nextVarName
    rw [List.reverse_reverse]

theorem window_unique {k m n : Nat}
    (hm1 : allocT m ≤ k) (hm2 : k < allocT (m + 1))
    (hn1 : allocT n ≤ k) (hn2 : k < allocT (n + 1)) : m = n := by
  rcases Nat.lt_trichotomy m n with h | h | h
  · have hle : allocT (m + 1) ≤ allocT n := allocT_mono h
    omega
  · exact h
  · have hle : allocT (n + 1) ≤ allocT m := allocT_mono h
    omega

theorem genName_length_iff (k n : Nat) :
    (genName k).length = n + 1 ↔ allocT n ≤ k ∧ k < allocT (n + 1) := by
  obtain ⟨m, hm1, hm2, hlen, -, -, -⟩ := iterRev_window k
  rw [genName_eq_iterRev, List.length_reverse]
  constructor
  · intro h
    have : m = n := by omega
    subst this; exact ⟨hm1, hm2⟩
  · intro ⟨h1, h2⟩
    have := window_unique hm1 hm2 h1 h2
    omega

theorem genName_inj {i j : Nat} (h : i < j) : genName i ≠ genName j := by
  intro heq
  obtain ⟨m, hm1, hm2, hmlen, hmval, -, -⟩ := iterRev_window i
  obtain ⟨n, hn1, hn2, hnlen, hnval, -, -⟩ := iterRev_window j
  have hiter : iterRev i = iterRev j := by
    have := congrArg List.reverse heq
    rwa [genName_eq_iterRev, genName_eq_iterRev, List.reverse_reverse,
      List.reverse_reverse] at this
  have hlen : m = n := by
    rw [hiter] at hmlen
    omega
  subst hlen
  rw [hiter, hnval] at hmval
  omega

theorem genName_count_upto (n M : Nat) (h : allocT (n + 1) ≤ M) :
    ((Finset.range M).filter (fun k => (genName k).length = n + 1)).card
      = 36 ^ (n + 1) - 10 * 36 ^ n := by
  have hI : (Finset.range M).filter (fun k => (genName k).length = n + 1)
      = Finset.Ico (allocT n) (allocT (n + 1)) := by
    ext k
    simp only [Finset.mem_filter, Finset.mem_range, Finset.mem_Ico,
      genName_length_iff]
    constructor
    · rintro ⟨-, h1, h2⟩; exact ⟨h1, h2⟩
    · rintro ⟨h1, h2⟩
      exact ⟨lt_of_lt_of_le h2 h, h1, h2⟩
  rw [hI, Nat.card_Ico, allocT_succ]
  have h36 : (36 : Nat) ^ (n + 1) = 36 * 36 ^ n := by rw [pow_succ]; ring
  omega

theorem allocT_eval : allocT 1 = 26 ∧ allocT 2 = 962 ∧ allocT 3 = 34658 := by
  refine ⟨?_, ?_, ?_⟩ <;>
    simp [allocT, Finset.sum_range_succ]

/-- C8: iterating the successor from `"a"` yields pairwise-distinct names,
each alphabetic-first, with non-decreasing length; names of length n + 1 are
exactly those of index in `[allocT n, allocT (n+1))`, so any index range
covering that window contains exactly `36^(n+1) - 10*36^n` names of length
n + 1 — concretely 26, 936 and 33696 names of lengths 1, 2 and 3 before the
first name of length 4 (which appears at index `allocT 3`). -/
theorem genName_schedule :
    (∀ i j : Nat, i < j → genName i ≠ genName j) ∧
      (∀ k : Nat, (genName k).headD '0' ∈ lowers) ∧
      (∀ k : Nat, (genName k).length ≤ (genName (k + 1)).length) ∧
      (∀ n M : Nat, allocT (n + 1) ≤ M →
        ((Finset.range M).filter (fun k => (genName k).length = n + 1)).card
          = 36 ^ (n + 1) - 10 * 36 ^ n) ∧
      ((Finset.range (allocT 3)).filter (fun k => (genName k).length = 1)).card = 26 ∧
      ((Finset.range (allocT 3)).filter (fun k => (genName k).length = 2)).card = 936 ∧
      ((Finset.range (allocT 3)).filter (fun k => (genName k).length = 3)).card = 33696 ∧
      (genName (allocT 3)).length = 4 := by
  obtain ⟨hT1, hT2, hT3⟩ := allocT_eval
  refine ⟨fun i j h => genName_inj h, ?_, ?_, genName_count_upto, ?_, ?_, ?_, ?_⟩
  · intro k
    obtain ⟨n, -, -, -, -, -, hlast⟩ := iterRev_window k
    rw [genName_eq_iterRev, headD_reverse]
    exact hlast
  · intro k
    obtain ⟨m, hm1, hm2, hmlen, -, -, -⟩ := iterRev_window k
    obtain ⟨n, hn1, hn2, hnlen, -, -, -⟩ := iterRev_window (k + 1)
    rw [genName_eq_iterRev, genName_eq_iterRev, List.length_reverse,
      List.length_reverse, hmlen, hnlen]
    have hmn : m ≤ n := by
      by_contra hlt
      have hle : allocT (n + 1) ≤ allocT m := allocT_mono (Nat.lt_of_not_le hlt)
      omega
    omega
  · have := genName_count_upto 0 (allocT 3) (by norm_num [hT1, hT3])
    simpa using this
  · have := genName_count_upto 1 (allocT 3) (by norm_num [hT2, hT3])
    simpa using this
  · have := genName_count_upto 2 (allocT 3) (by norm_num [hT3])
    simpa using this
  · have := (genName_length_iff (allocT 3) 3).mpr
      ⟨Nat.le_refl _, by
        rw [allocT_succ 3]
        have h0 : 0 < 26 * 36 ^ 3 := by positivity
        omega⟩
    omega

/-- Witness for C8 at concrete indices. -/
theorem genName_schedule_witness :
    genName 0 ≠ genName 1 ∧
      ((Finset.range (allocT 1)).filter (fun k => (genName k).length = 1)).card
        = 36 ^ 1 - 10 * 36 ^ 0 :=
  ⟨genName_schedule.1 0 1 (by decide),
   genName_schedule.2.2.2.1 0 (allocT 1) (Nat.le_refl _)⟩

/-! ## Replacement policy (`replacementAllowed` / `autoMinLength` /
`shortCode` / `varCode`, index.js 370-388, 441-448)

The dedupe options carried by the session; a `minOcc` of 0 models the
option being absent (JS `!this.options.dedupe.minOcc` is true for both). -/

structure DedupeOpts where
  minLength : Nat
  minSaving : Nat
  minOcc : Nat
deriving DecidableEq, Repr

/-- Translation of `varCode` (index.js 446-448): `'$' + varName`. -/
def varCode (v : Str) : Str := '$' :: v

/-- Translation of `shortCode` (index.js 441-443): `"'." + varCode + ".'"`. -/
def shortCode (v : Str) : Str := '\'' :: '.' :: (varCode v ++ ['.', '\''])

/-- Translation of `autoMinLength` (index.js 386-388): `minSaving +
shortCode(varName).length`. -/
def autoMinLength (opts : DedupeOpts) (varName : Str) : Nat :=
  opts.minSaving + (shortCode varName).length

/-- The fields of a match record consulted by `replacementAllowed`. -/
structure MatchStats where
  strLen : Nat
  occTotal : Nat
deriving DecidableEq, Repr

/-- Translation of `replacementAllowed` (index.js 370-372):
`(!minOcc || occTotal >= minOcc) && str.length >= autoMinLength()`. -/
def replacementAllowed (opts : DedupeOpts) (varName : Str) (m : MatchStats) : Bool :=
  (opts.minOcc == 0 || opts.minOcc ≤ m.occTotal) &&
    autoMinLength opts varName ≤ m.strLen

/-- C5 counterexample: `replacementAllowed` never consults the configured
fixed minimum length.  With `minLength = 100`, `minSaving = 10` and current
identifier `"a"` (auto floor 16), a 50-character match is allowed even
though 50 is far below the configured fixed minimum, refuting the claim
that a match below the fixed configured minimum length is never allowed. -/
theorem replacementAllowed_ignores_minLength :
    replacementAllowed ⟨100, 10, 0⟩ ['a'] ⟨50, 5⟩ = true ∧
      (50 : Nat) < (100 : Nat) ∧ (⟨100, 10, 0⟩ : DedupeOpts).minLength = 100 := by
  refine ⟨by decide, by decide, rfl⟩

/-- C5 as amended: `replacementAllowed` returns true only if the match's
string length is at least the auto-computed floor `minSaving + |shortCode
varName|` (the reference-token overhead `|shortCode v| = |v| + 5`), and,
when a minimum occurrence threshold is configured, only if the occurrence
total meets it; a match below the auto floor is never allowed regardless of
occurrence count.  The fixed configured `minLength` is enforced at match
discovery (`findDuplicates`), not here. -/
theorem replacementAllowed_floor (opts : DedupeOpts) (v : Str) (m : MatchStats) :
    (replacementAllowed opts v m = true → autoMinLength opts v ≤ m.strLen) ∧
      (replacementAllowed opts v m = true → opts.minOcc ≠ 0 →
        opts.minOcc ≤ m.occTotal) ∧
      (m.strLen < autoMinLength opts v → replacementAllowed opts v m = false) ∧
      autoMinLength opts v = opts.minSaving + v.length + 5 := by
  refine ⟨?_, ?_, ?_, ?_⟩
  · intro h
    unfold replacementAllowed at h
    simp only [Bool.and_eq_true, decide_eq_true_eq] at h
    exact h.2
  · intro h hocc
    unfold replacementAllowed at h
    simp only [Bool.and_eq_true, Bool.or_eq_true, beq_iff_eq, decide_eq_true_eq] at h
    rcases h.1 with h1 | h1
    · exact absurd h1 hocc
    · exact h1
  · intro h
    unfold replacementAllowed
    simp only [Bool.and_eq_false_iff, decide_eq_false_iff_not, Nat.not_le]
    right
    exact h
  · unfold autoMinLength shortCode varCode
    simp [List.length_append]
    omega

/-- Witness for C5 (amended) at concrete inputs. -/
theorem replacementAllowed_floor_witness :
    replacementAllowed ⟨0, 10, 0⟩ ['a'] ⟨10, 99⟩ = false ∧
      autoMinLength ⟨0, 10, 0⟩ ['a'] = 16 :=
  ⟨(replacementAllowed_floor ⟨0, 10, 0⟩ ['a'] ⟨10, 99⟩).2.2.1 (by decide),
   by rw [(replacementAllowed_floor ⟨0, 10, 0⟩ ['a'] ⟨10, 99⟩).2.2.2]; rfl⟩

/-! ## Paged record store (`batchCreate` / `batchRead` / `batchInsert` /
`batchUpdate`, index.js 724-830)

A page is an association list from integer keys to JS values; a stored
value of `none` models a key that is present but holds `undefined` (which
`batchRead` cannot distinguish from absence).  Page spill/load is pure in
the model: `pages` always reflects what the JS keeps between the resident
`data` object and the flushed page files (every page switch in the source
saves the resident page first), and `current` is the resident page index.
`batchSize` is `options.batchSize`. -/

structure BatchSet (α : Type) where
  pages : List (List (Nat × Option α))
  current : Nat
  lastLen : Nat
  totalLen : Nat
deriving DecidableEq, Repr

/-- JS object read `data[k]`: `none` both for an absent key and for a key
holding `undefined`. -/
def jsGet {α : Type} (page : List (Nat × Option α)) (k : Nat) : Option α :=
  (page.lookup k).join

/-- JS object write `data[k] = v` (overwrites, or appends a new key). -/
def jsSet {α : Type} (page : List (Nat × Option α)) (k : Nat) (v : Option α) :
    List (Nat × Option α) :=
  if (page.lookup k).isSome then
    page.map (fun p => if p.1 = k then (k, v) else p)
  else
    page ++ [(k, v)]

/-- Translation of `batchCreate` (index.js 724-736): one empty resident
page. -/
def batchCreate (α : Type) : BatchSet α := ⟨[[]], 0, 0, 0⟩

/-- The scan loop of `batchRead` (index.js 748-759): `cur` advances with
wraparound, loading each page, until the key is found or the loop returns to
`start`; returns the value found and the page left resident. -/
def batchReadLoop {α : Type} (pages : List (List (Nat × Option α)))
    (key start : Nat) : Nat → Nat → Nat → Option α × Nat
  | _, curLoaded, 0 => (none, curLoaded)
  | cur, curLoaded, fuel + 1 =>
    let c1 := cur + 1
    let c2 := if pages.length ≤ c1 then 0 else c1
    if c2 = start then (none, curLoaded)
    else
      match jsGet (pages.getD c2 []) key with
      | some v => (some v, c2)
      | none => batchReadLoop pages key start c2 c2 fuel

/-- Translation of `batchRead` (index.js 741-761), key lookup form: read the
resident page, then scan the remaining pages wrapping once.  Returns the
value and the store (whose resident page may have changed). -/
def batchRead {α : Type} (s : BatchSet α) (key : Nat) : Option α × BatchSet α :=
  match jsGet (s.pages.getD s.current []) key with
  | some v => (some v, s)
  | none =>
    let (v, cur) := batchReadLoop s.pages key s.current s.current s.current
      s.pages.length
    (v, { s with current := cur })

/-- Translation of `batchInsert` (index.js 793-819).  A `key` of `none` is
the JS `null` auto-key (`totalLen`); when the resident page is full a fresh
page is started, otherwise the last page is loaded and extended. -/
def batchInsert {α : Type} (batchSize : Nat) (s : BatchSet α) (key : Option Nat)
    (v : Option α) : Nat × BatchSet α :=
  let k := key.getD s.totalLen
  if batchSize ≤ s.lastLen then
    (k, ⟨s.pages ++ [[(k, v)]], s.pages.length, 1, s.totalLen + 1⟩)
  else
    let last := s.pages.length - 1
    (k, ⟨s.pages.set last (jsSet (s.pages.getD last []) k v), last,
      s.lastLen + 1, s.totalLen + 1⟩)

/-- Translation of `batchUpdate` (index.js 822-830).  The source reads
`var value = this.batchRead(name, key)`, shadowing the `value` parameter:
when the key is found the old value is written back, and when it is not the
fallback insert stores the shadowed (now `undefined`) value. -/
def batchUpdate {α : Type} (batchSize : Nat) (s : BatchSet α) (key : Nat)
    (_v : Option α) : BatchSet α :=
  match batchRead s key with
  | (some old, s1) =>
    let page := jsSet (s1.pages.getD s1.current []) key (some old)
    { s1 with pages := s1.pages.set s1.current page }
  | (none, s1) => (batchInsert batchSize s1 (some key) none).2

/-- C2 (code bug): `batchUpdate` does not store the supplied value.  After
inserting value 10 at key 0, updating key 0 to 20 leaves a subsequent read
returning 10; and updating the absent key 5 to 7 falls back to inserting
`undefined`, so the key afterwards reads as absent rather than holding 7.
(The shadowing `var value = this.batchRead(name, key)` discards the `value`
parameter.) -/
theorem batchUpdate_loses_value :
    (batchRead (batchUpdate 500
        (batchInsert 500 (batchCreate Nat) (some 0) (some 10)).2 0 (some 20)) 0).1
      = some 10 ∧
    (some 10 : Option Nat) ≠ some 20 ∧
    (batchRead (batchUpdate 500
        (batchInsert 500 (batchCreate Nat) (some 0) (some 10)).2 5 (some 7)) 5).1
      = none ∧
    (none : Option Nat) ≠ some 7 := by
  refine ⟨by decide, by decide, by decide, by decide⟩

/-! ## Match records and the Match Finder (`addMatch` / `fragmentMatches`,
index.js 521-595)

A match record carries the canonical string, the occurrence map (file key to
ordered list of fragment offsets), the reference identifier (`none` until
first accepted use, as in the JS where the field is initially undefined),
the replacement counter, the memoized allowed decision and the occurrence
total (0/false standing for the JS undefined, which every consumer treats
as falsy).  The matches store is the logical content of the paged store in
insertion-key order; `addMatch`'s `batchRead(…, 'str')` lookup is the first
record with that string (strings are unique across the store because
`addMatch` only inserts on lookup failure). -/

structure MatchRec where
  str : Str
  occ : List (Nat × List Nat)
  var : Option Str
  reps : Nat
  allowed : Bool
  occTotal : Nat
deriving DecidableEq, Repr

/-- A fresh match record as built by `addMatch`: only `str` and `occ` are
set in the source; the remaining fields are the JS undefined defaults. -/
def mkMatch (s : Str) (occ : List (Nat × List Nat)) : MatchRec :=
  ⟨s, occ, none, 0, false, 0⟩

/-- `batchRead('matches', str, 'str')`: first record whose `str` property is
the given string, with its key. -/
def lookupByStr : List MatchRec → Str → Option (Nat × MatchRec)
  | [], _ => none
  | m :: ms, s =>
    if m.str = s then some (0, m)
    else (lookupByStr ms s).map (fun p => (p.1 + 1, p.2))

/-- One half of `addMatch`'s occurrence recording: append `pos` under `name`
unless already present, creating the entry if the file has none (keys in the
occurrence map are unique, so updating the first hit is updating the JS
object property). -/
def addOcc (occ : List (Nat × List Nat)) (name pos : Nat) :
    List (Nat × List Nat) :=
  match occ with
  | [] => [(name, [pos])]
  | (k, l) :: rest =>
    if k = name then
      (if pos ∈ l then (k, l) :: rest else (k, l ++ [pos]) :: rest)
    else (k, l) :: addOcc rest name pos

/-- Translation of `addMatch` (index.js 557-595): merge an observed run into
the matches store and return the store and the touched key. -/
def addMatch (ms : List MatchRec) (aName aPos bName bPos : Nat) (s : Str) :
    List MatchRec × Nat :=
  match lookupByStr ms s with
  | some (k, m) =>
    let m2 := { m with occ := addOcc (addOcc m.occ aName aPos) bName bPos }
    (ms.set k m2, k)
  | none =>
    if aName ≠ bName then
      (ms ++ [mkMatch s [(aName, [aPos]), (bName, [bPos])]], ms.length)
    else
      (ms ++ [mkMatch s [(aName, [aPos, bPos])]], ms.length)

/-- The `while` extension loop of `fragmentMatches` (index.js 541-544):
extend the run at (i, j) while the next fragments coincide, accumulating the
matched string.  `fuel` bounds the iterations (`k` grows each step and the
loop requires `i + k < a.length`, so `a.length` suffices). -/
def extendRun (a b : Frags) (i j : Nat) : Nat → Nat → Str → Nat × Str
  | 0, k, s => (k, s)
  | fuel + 1, k, s =>
    if i + k < a.length ∧ j + k < b.length ∧ a.getD (i + k) [] = b.getD (j + k) [] then
      extendRun a b i j fuel (k + 1) (s ++ a.getD (i + k) [])
    else (k, s)

/-- The inner `j` loop of `fragmentMatches` (index.js 537-553), including the
in-loop forwarding of both `i` and `j` past an accepted run.  Returns the
updated store, the accumulated new-match keys, and the final `i`. -/
def innerJ (a b : Frags) (aName bName mn : Nat) :
    Nat → Nat → Nat → List MatchRec → List Nat → List MatchRec × List Nat × Nat
  | 0, i, _, ms, nm => (ms, nm, i)
  | fuel + 1, i, j, ms, nm =>
    if j < b.length then
      if (aName ≠ bName ∨ i ≠ j) ∧ a.getD i [] = b.getD j [] then
        let (k, s) := extendRun a b i j a.length 1 (a.getD i [])
        if mn ≤ s.length then
          let (ms2, key) := addMatch ms aName i bName j s
          innerJ a b aName bName mn fuel (i + (k - 1)) (j + (k - 1) + 1) ms2
            (nm ++ [key])
        else innerJ a b aName bName mn fuel i (j + 1) ms nm
      else innerJ a b aName bName mn fuel i (j + 1) ms nm
    else (ms, nm, i)

/-- The outer `i` loop of `fragmentMatches` (index.js 535-554). -/
def outerI (a b : Frags) (aName bName mn : Nat) :
    Nat → Nat → List MatchRec → List Nat → List MatchRec × List Nat
  | 0, _, ms, nm => (ms, nm)
  | fuel + 1, i, ms, nm =>
    if i < a.length then
      let (ms2, nm2, i2) := innerJ a b aName bName mn (b.length + 1) i 0 ms nm
      outerI a b aName bName mn fuel (i2 + 1) ms2 nm2
    else (ms, nm)

/-- Translation of `fragmentMatches` (index.js 533-555): search for common
consecutive runs of `a` and `b` (named `aName`, `bName`), recording those of
length at least `mn` in the matches store. -/
def fragmentMatches (ms : List MatchRec) (nm : List Nat) (a b : Frags)
    (aName bName mn : Nat) : List MatchRec × List Nat :=
  outerI a b aName bName mn (a.length + 1) 0 ms nm

/-- The fragment sequence of the C6 test string under the trailing boundary
set of the spec's example. -/
def c6frags : Frags :=
  createFragments [] ['>', ';', '}', '\n', ' ']
    "<test>test</test><test>test</test>".data

/-- C6: fragmenting `"<test>test</test><test>test</test>"` on the trailing
set and matching the sequence against itself (same name 0, minimum 3)
produces exactly one match record, `"<test>test</test>"` at fragment
offsets [0, 2] of source 0; moreover equal indices are never compared when
the names coincide (a single long fragment matched against itself under the
same name yields nothing) while the identical comparison under two distinct
names does record a match. -/
theorem fragmentMatches_self_exclusion :
    c6frags = ["<test>".data, "test</test>".data, "<test>".data,
      "test</test>".data] ∧
      (fragmentMatches [] [] c6frags c6frags 0 0 3).1
        = [mkMatch "<test>test</test>".data [(0, [0, 2])]] ∧
      (fragmentMatches [] [] ["aaaa".data] ["aaaa".data] 0 0 1).1 = [] ∧
      (fragmentMatches [] [] ["aaaa".data] ["aaaa".data] 0 1 1).1
        = [mkMatch "aaaa".data [(0, [0]), (1, [0])]] := by
  refine ⟨by decide, by decide, by decide, by decide⟩

/-! ## Replacement Applier (`doReplace`, index.js 391-421)

`doReplace` scans the fragment list left to right; when a run of fragments
starting at `i` concatenates exactly to the match string, the first fragment
of the run is replaced with the reference token, the rest of the run is
blanked, the file is marked deduped, the replacement counter is bumped and
the scan resumes after the run; blanks are filtered out at the end.  The
model threads the counter and the deduped flag explicitly and returns
(new fragments, new counter, new deduped flag). -/

/-- The `while` of `doReplace` (index.js 398-401): extend `seek`/`offset`
while the next fragment equals the corresponding slice of the match string
(`match.str.substring(offset, offset + frags[seek].length)`). -/
def drExtend (mstr : Str) (fs : Frags) : Nat → Nat → Nat → Nat × Nat
  | 0, seek, off => (seek, off)
  | fuel + 1, seek, off =>
    if seek < fs.length ∧ off < mstr.length ∧
        (mstr.drop off).take (fs.getD seek []).length = fs.getD seek [] then
      drExtend mstr fs fuel (seek + 1) (off + (fs.getD seek []).length)
    else (seek, off)

/-- Blank the fragments at indices in `[lo, hi)` (the
`for (i = frag + 1; i < seek; ++i) frags[i] = ''` of the source). -/
def blankRange (fs : Frags) (lo hi : Nat) : Frags :=
  (fs.enum.map (fun p => if lo ≤ p.1 ∧ p.1 < hi then [] else p.2))

/-- The scanning loop of `doReplace` (index.js 393-418): on a full-run match
at `i`, splice the token, blank the tail of the run, count the replacement,
set the deduped flag, and resume at the end of the run. -/
def drLoop (mstr tok : Str) : Nat → Nat → Frags → Nat → Bool →
    Frags × Nat × Bool
  | 0, _, fs, reps, dd => (fs, reps, dd)
  | fuel + 1, i, fs, reps, dd =>
    if i < fs.length then
      if (fs.getD i []).isPrefixOf mstr then
        let (seek, off) := drExtend mstr fs (fs.length + 1) (i + 1)
          (fs.getD i []).length
        if mstr.length ≤ off then
          let fs2 := blankRange (fs.set i tok) (i + 1) seek
          drLoop mstr tok fuel (seek - 1 + 1) fs2 (reps + 1) true
        else drLoop mstr tok fuel (i + 1) fs reps dd
      else drLoop mstr tok fuel (i + 1) fs reps dd
    else (fs, reps, dd)

/-- Translation of `doReplace` (index.js 391-421): replace every
non-overlapping occurrence of the match string found in one left-to-right
scan, then drop the blanked fragments (`filter(Boolean)`).  Takes and
returns the match's replacement counter and the file's deduped flag. -/
def doReplace (fs : Frags) (mstr mvar : Str) (reps : Nat) (deduped : Bool) :
    Frags × Nat × Bool :=
  let (fs2, reps2, dd2) := drLoop mstr (shortCode mvar) (fs.length + 1) 0 fs
    reps deduped
  (fs2.filter (fun f => f ≠ []), reps2, dd2)

theorem drLoop_reps_dd (mstr tok : Str) (fuel i : Nat) (fs : Frags)
    (reps : Nat) (dd : Bool) :
    reps ≤ (drLoop mstr tok fuel i fs reps dd).2.1 ∧
      ((drLoop mstr tok fuel i fs reps dd).2.2
        = (dd || reps < (drLoop mstr tok fuel i fs reps dd).2.1)) := by
  induction fuel generalizing i fs reps dd with
  | zero => simp [drLoop]
  | succ fuel ih =>
    simp only [drLoop]
    by_cases h1 : i < fs.length
    · simp only [h1, if_true]
      by_cases h2 : (fs.getD i []).isPrefixOf mstr
      · simp only [h2, if_true]
        by_cases h3 : mstr.length ≤ (drExtend mstr fs (fs.length + 1) (i + 1)
            (fs.getD i []).length).2
        · simp only [h3, if_true]
          obtain ⟨ha, hb⟩ := ih ((drExtend mstr fs (fs.length + 1) (i + 1)
              (fs.getD i []).length).1 - 1 + 1)
            (blankRange (fs.set i tok) (i + 1)
              (drExtend mstr fs (fs.length + 1) (i + 1)
                (fs.getD i []).length).1) (reps + 1) true
          have hlt : reps < (drLoop mstr tok fuel
              ((drExtend mstr fs (fs.length + 1) (i + 1)
                (fs.getD i []).length).1 - 1 + 1)
              (blankRange (fs.set i tok) (i + 1)
                (drExtend mstr fs (fs.length + 1) (i + 1)
                  (fs.getD i []).length).1) (reps + 1) true).2.1 := by omega
          refine ⟨by omega, ?_⟩
          rw [hb]
          simp only [Bool.true_or, decide_eq_true hlt, Bool.or_true]
        · simp only [h3, if_false]
          exact ih (i + 1) fs reps dd
      · simp only [h2, if_false]
        exact ih (i + 1) fs reps dd
    · simp only [h1, if_false]
      simp [drLoop]

/-- C10: in one call `doReplace` replaces every run found by its single
left-to-right scan — demonstrated on the test-suite input (one occurrence
spanning two fragments) and on an input holding two disjoint occurrences,
where both are substituted and the counter rises by exactly two; the
returned sequence never contains an empty fragment; and the deduped flag of
the result is set exactly when the counter rose (or was forced by an
already-deduped file). -/
theorem doReplace_all_occurrences :
    (doReplace ["aaa".data, "bbb".data, "aaa".data, "ccc".data, "aaa".data,
        "ddd".data] "aaaccc".data "v".data 0 false
      = (["aaa".data, "bbb".data, shortCode "v".data, "aaa".data, "ddd".data],
        1, true)) ∧
      (doReplace ["ab".data, "cd".data, "x".data, "ab".data, "cd".data]
        "abcd".data "v".data 0 false
        = ([shortCode "v".data, "x".data, shortCode "v".data], 2, true)) ∧
      (∀ fs mstr mvar reps dd,
        ∀ f ∈ (doReplace fs mstr mvar reps dd).1, f ≠ []) ∧
      (∀ fs mstr mvar reps dd,
        reps ≤ (doReplace fs mstr mvar reps dd).2.1 ∧
          (doReplace fs mstr mvar reps dd).2.2
            = (dd || reps < (doReplace fs mstr mvar reps dd).2.1)) := by
  refine ⟨by decide, by decide, ?_, ?_⟩
  · intro fs mstr mvar reps dd f hf
    unfold doReplace at hf
    have := List.of_mem_filter hf
    simpa using this
  · intro fs mstr mvar reps dd
    unfold doReplace
    exact drLoop_reps_dd mstr (shortCode mvar) (fs.length + 1) 0 fs reps dd

/-- Witness for C10 at a concrete input: the token is a member of the
two-occurrence result and is non-empty, via the general conjunct. -/
theorem doReplace_all_occurrences_witness :
    shortCode "v".data ≠ [] :=
  doReplace_all_occurrences.2.2.1
    ["ab".data, "cd".data, "x".data, "ab".data, "cd".data]
    "abcd".data "v".data 0 false (shortCode "v".data)
    (by rw [doReplace_all_occurrences.2.1]; exact List.mem_cons_self _ _)

/-! ## Identifier discipline (`matchReplace`, index.js 272-297)

`matchReplace` guards one batch of replacement application for a match: an
allowed match without an identifier tentatively receives the session's
current identifier; after the batch, a nonzero counter keeps the identifier
(advancing the session identifier if it was just taken), a zero counter
releases it.  The replacement callback touches only the match's counter (it
runs `doReplace` over files), so the model abstracts it by the counter value
it leaves behind (`newReps`, never smaller than the old counter in the
source since `doReplace` only increments). -/

/-- Translation of `matchReplace` (index.js 272-297).  Returns the updated
match record and session identifier. -/
def matchReplace (m : MatchRec) (vn : Str) (newReps : Nat) : MatchRec × Str :=
  if m.allowed then
    let varTaken := m.var.isNone
    let m1 := if varTaken then { m with var := some vn } else m
    let m2 := { m1 with reps := newReps }
    if m2.reps ≠ 0 then
      (m2, if varTaken then nextVarName vn else vn)
    else ({ m2 with var := none }, vn)
  else (m, vn)

/-- A session processing a list of fresh allowed/denied matches in order,
each batch leaving the given counter value, as `processNewMatches` does for
newly discovered matches. -/
def runAlloc (vn : Str) : List (Bool × Nat) → List MatchRec × Str
  | [] => ([], vn)
  | (al, nr) :: rest =>
    let p := matchReplace ⟨[], [], none, 0, al, 0⟩ vn nr
    let q := runAlloc p.2 rest
    (p.1 :: q.1, q.2)

/-- A forward identifier is canonical when its reversed form is. -/
def canonFwd (s : Str) : Prop := canonRev s.reverse

instance (s : Str) : Decidable (canonFwd s) := by
  unfold canonFwd; infer_instance

/-- Strict order in which the Allocator issues names: shorter first, then by
numeric value (on reversed representations). -/
def allocLt (s t : Str) : Prop :=
  s.length < t.length ∨ (s.length = t.length ∧ valRev s < valRev t)

theorem nextVarName_reverse (vn : Str) :
    (nextVarName vn).reverse = nvnRev vn.reverse := by
  unfold nextVarName
  rw [List.reverse_reverse]

theorem allocLt_next (r : Str) (hc : canonRev r) : allocLt r (nvnRev r) := by
  by_cases hz : ∀ c ∈ r, c = 'z'
  · left; rw [nvnRev_of_all_z r hz]; simp
  · obtain ⟨h1, h2, h3⟩ := nvnRev_incr r hc.2.1 hz
    right; exact ⟨h2.symm, by omega⟩

theorem canonRev_nvnRev (r : Str) (hc : canonRev r) : canonRev (nvnRev r) := by
  obtain ⟨hne, hv, hl⟩ := hc
  by_cases hz : ∀ c ∈ r, c = 'z'
  · rw [nvnRev_of_all_z r hz]
    refine ⟨by simp, ?_, ?_⟩
    · intro c hcm
      rcases List.mem_append.mp hcm with h | h
      · rw [List.eq_of_mem_replicate h]; decide
      · simp at h; subst h; decide
    · rw [List.getLastD_concat]; decide
  · obtain ⟨h1, h2, h3⟩ := nvnRev_incr r hv hz
    exact ⟨nvnRev_ne_nil r, h3, nvnRev_getLast r hv hz hl⟩

theorem allocLt_trans {a b c : Str} (h1 : allocLt a b) (h2 : allocLt b c) :
    allocLt a c := by
  rcases h1 with h1 | ⟨h1, h1'⟩ <;> rcases h2 with h2 | ⟨h2, h2'⟩
  · left; omega
  · left; omega
  · left; omega
  · right; exact ⟨by omega, by omega⟩

theorem allocLt_ne {a b : Str} (h : allocLt a b) : a ≠ b := by
  intro he
  subst he
  rcases h with h | ⟨-, h⟩ <;> omega

/-- The three possible outcomes of `matchReplace` on a fresh (identifier-
free, zero-counter) match. -/
theorem matchReplace_fresh (al : Bool) (nr : Nat) (vn : Str) :
    ((matchReplace ⟨[], [], none, 0, al, 0⟩ vn nr).1.var = none ∧
      (matchReplace ⟨[], [], none, 0, al, 0⟩ vn nr).2 = vn) ∨
    ((matchReplace ⟨[], [], none, 0, al, 0⟩ vn nr).1.var = some vn ∧
      (matchReplace ⟨[], [], none, 0, al, 0⟩ vn nr).2 = nextVarName vn) := by
  by_cases ha : al <;> by_cases hnr : nr = 0 <;>
    simp [matchReplace, ha, hnr]

/-- Identifiers held after a session are at least the starting identifier
in allocation order. -/
theorem runAlloc_var_ge (items : List (Bool × Nat)) :
    ∀ (vn : Str), canonRev vn.reverse →
      ∀ m ∈ (runAlloc vn items).1, ∀ w, m.var = some w →
        w = vn ∨ allocLt vn.reverse w.reverse := by
  induction items with
  | nil => intro vn hc m hm; simp [runAlloc] at hm
  | cons it rest ih =>
    obtain ⟨al, nr⟩ := it
    intro vn hc m hm w hw
    simp only [runAlloc, List.mem_cons] at hm
    have hstep : allocLt vn.reverse (nextVarName vn).reverse := by
      rw [nextVarName_reverse]; exact allocLt_next _ hc
    rcases hm with h | h
    · subst h
      rcases matchReplace_fresh al nr vn with ⟨h1, h2⟩ | ⟨h1, h2⟩
      · rw [h1] at hw; exact absurd hw (by simp)
      · rw [h1] at hw
        left
        injection hw with hw
        exact hw.symm
    · rcases matchReplace_fresh al nr vn with ⟨h1, h2⟩ | ⟨h1, h2⟩
      · rw [h2] at h
        exact ih vn hc m h w hw
      · rw [h2] at h
        have hc' : canonRev (nextVarName vn).reverse := by
          rw [nextVarName_reverse]; exact canonRev_nvnRev _ hc
        rcases ih (nextVarName vn) hc' m h w hw with h3 | h3
        · subst h3; right; exact hstep
        · right; exact allocLt_trans hstep h3

/-- Identifiers held after a session are strictly increasing along the
session order. -/
theorem runAlloc_sorted (items : List (Bool × Nat)) :
    ∀ (vn : Str), canonRev vn.reverse →
      ∀ (i j : Nat) (mi mj : MatchRec) (x y : Str), i < j →
        (runAlloc vn items).1[i]? = some mi →
        (runAlloc vn items).1[j]? = some mj →
        mi.var = some x → mj.var = some y → allocLt x.reverse y.reverse := by
  induction items with
  | nil =>
    intro vn hc i j mi mj x y hij hi hj hx hy
    simp [runAlloc] at hi
  | cons it rest ih =>
    obtain ⟨al, nr⟩ := it
    intro vn hc i j mi mj x y hij hi hj hx hy
    simp only [runAlloc] at hi hj
    have hstep : allocLt vn.reverse (nextVarName vn).reverse := by
      rw [nextVarName_reverse]; exact allocLt_next _ hc
    have hc' : canonRev (nextVarName vn).reverse := by
      rw [nextVarName_reverse]; exact canonRev_nvnRev _ hc
    cases i with
    | zero =>
      rw [List.getElem?_cons_zero] at hi
      injection hi with hi
      subst hi
      rcases matchReplace_fresh al nr vn with ⟨h1, h2⟩ | ⟨h1, h2⟩
      · rw [h1] at hx; exact absurd hx (by simp)
      · rw [h1] at hx
        injection hx with hx
        subst hx
        cases j with
        | zero => omega
        | succ j' =>
          rw [List.getElem?_cons_succ, h2] at hj
          have hmem : mj ∈ (runAlloc (nextVarName vn) rest).1 :=
            List.getElem?_mem hj
          rcases runAlloc_var_ge rest (nextVarName vn) hc' mj hmem y hy
            with h3 | h3
          · subst h3; exact hstep
          · exact allocLt_trans hstep h3
    | succ i' =>
      cases j with
      | zero => omega
      | succ j' =>
        rw [List.getElem?_cons_succ] at hi hj
        rcases matchReplace_fresh al nr vn with ⟨h1, h2⟩ | ⟨h1, h2⟩
        · rw [h2] at hi hj
          exact ih vn hc i' j' mi mj x y (by omega) hi hj hx hy
        · rw [h2] at hi hj
          exact ih (nextVarName vn) hc' i' j' mi mj x y (by omega) hi hj hx hy

/-- C4: identifier discipline of `matchReplace`.  A fresh allowed match is
tentatively given the session identifier; a batch ending at counter zero
unsets the identifier and leaves the session identifier unchanged; a batch
moving the counter off zero keeps the identifier and advances the session
identifier; a match already holding an identifier never advances the
session; a disallowed match changes nothing; and across a whole session of
fresh matches no two matches end up permanently holding the same
identifier. -/
theorem matchReplace_identifier_discipline :
    (∀ (m : MatchRec) (vn : Str) (nr : Nat),
      m.allowed = true → m.var = none → nr ≠ 0 →
        matchReplace m vn nr = ({ m with var := some vn, reps := nr },
          nextVarName vn)) ∧
    (∀ (m : MatchRec) (vn : Str) (nr : Nat),
      m.allowed = true → m.var = none → nr = 0 →
        matchReplace m vn nr = ({ m with var := none, reps := 0 }, vn)) ∧
    (∀ (m : MatchRec) (vn : Str) (nr : Nat) (w : Str),
      m.allowed = true → m.var = some w → nr ≠ 0 →
        matchReplace m vn nr = ({ m with reps := nr }, vn)) ∧
    (∀ (m : MatchRec) (vn : Str) (nr : Nat),
      m.allowed = false → matchReplace m vn nr = (m, vn)) ∧
    (∀ (vn : Str) (items : List (Bool × Nat)) (i j : Nat) (mi mj : MatchRec)
        (x y : Str), canonFwd vn → i < j →
      (runAlloc vn items).1[i]? = some mi →
      (runAlloc vn items).1[j]? = some mj →
      mi.var = some x → mj.var = some y → x ≠ y) := by
  refine ⟨?_, ?_, ?_, ?_, ?_⟩
  · intro m vn nr ha hv hnr
    simp [matchReplace, ha, hv, hnr]
  · intro m vn nr ha hv hnr
    subst hnr
    simp [matchReplace, ha, hv]
  · intro m vn nr w ha hv hnr
    simp [matchReplace, ha, hv, hnr]
  · intro m vn nr ha
    simp [matchReplace, ha]
  · intro vn items i j mi mj x y hc hij hi hj hx hy
    have := runAlloc_sorted items vn hc i j mi mj x y hij hi hj hx hy
    intro he
    subst he
    exact allocLt_ne this rfl

/-- Witness for C4 at a concrete session: two accepted fresh matches receive
the distinct identifiers `"a"` and `"b"`. -/
theorem matchReplace_identifier_discipline_witness :
    (['a'] : Str) ≠ ['b'] :=
  matchReplace_identifier_discipline.2.2.2.2 ['a'] [(true, 1), (true, 2)]
    0 1 ⟨[], [], some ['a'], 1, true, 0⟩ ⟨[], [], some ['b'], 2, true, 0⟩
    ['a'] ['b'] (by decide) (by decide) (by decide) (by decide) rfl rfl

/-! ## Pass Orchestrator (`processFiles` / `findDuplicates` /
`processNewMatches` / `createOutFiles`, index.js 163-359, 501-519)

The model runs the orchestrator in the configuration the skip claim is
about: deduplication on, and the optional text manipulations (minify,
searchReplace, disable, slugify) off, so `manipulations` is the identity.
The two paged stores are modeled as their logical contents (lists indexed
by key; the JS keeps records as live objects so every field mutation is
visible in the store, which the model renders as an explicit `set`).
An input file carries its content, its presence on the `justCopy` list, and
its discovered classification. -/

inductive FType
  | dir
  | bin
  | text
deriving DecidableEq, Repr

structure InFile where
  content : Str
  justCopy : Bool
  ftype : FType
deriving DecidableEq, Repr

structure FileRec where
  skip : Bool
  ftype : FType
  frags : Option Frags
  deduped : Bool
deriving DecidableEq, Repr

structure RunOpts where
  passes : Nat
  skipContaining : List Str
  startsWith : List Char
  endsWith : List Char
  minLength : Nat
  minSaving : Nat
  minOcc : Nat
  maxFileCompare : Nat
deriving DecidableEq, Repr

structure SState where
  files : List FileRec
  mrecs : List MatchRec
  vn : Str
deriving DecidableEq, Repr

/-- The dedupe option fields consulted by the replacement policy. -/
def dedupeOf (opts : RunOpts) : DedupeOpts :=
  ⟨opts.minLength, opts.minSaving, opts.minOcc⟩

/-- JS `str.indexOf(pat) > -1`: substring containment. -/
def containsSub (s pat : Str) : Bool :=
  (List.range (s.length + 1)).any (fun i => pat.isPrefixOf (s.drop i))

/-- Translation of `createFileTrack` (index.js 128-147): skip when on the
just-copy list, and always for directories and binaries. -/
def createFileTrack (inf : InFile) : FileRec :=
  let skip0 := inf.justCopy
  ⟨(if inf.ftype = FType.dir ∨ inf.ftype = FType.bin then true else skip0),
    inf.ftype, none, false⟩

/-- Translation of `determineTextFileSkip` (index.js 150-160): a not-yet
skipped file containing one of the configured markers becomes skipped. -/
def determineTextFileSkip (opts : RunOpts) (f : FileRec) (content : Str) :
    FileRec :=
  if ¬ f.skip ∧ opts.skipContaining.any (fun marker => containsSub content marker)
  then { f with skip := true }
  else f

/-- Translation of `setOccTotal` (index.js 375-383). -/
def occTotalOf (occ : List (Nat × List Nat)) : Nat :=
  (occ.map (fun p => p.2.length)).sum

/-- The `matchReplace` call of the apply-existing-matches loop (index.js
220-228) whose callback runs `doReplace` on the current file `fk`. -/
def matchReplaceFile (st : SState) (mk fk : Nat) : SState :=
  match st.mrecs[mk]?, st.files[fk]? with
  | some m, some f =>
    if m.allowed then
      let varTaken := m.var.isNone
      let mv := if varTaken then some st.vn else m.var
      let r := doReplace (f.frags.getD []) m.str (mv.getD []) m.reps f.deduped
      let f2 := { f with frags := some r.1, deduped := r.2.2 }
      let files2 := st.files.set fk f2
      if r.2.1 ≠ 0 then
        ⟨files2, st.mrecs.set mk { m with var := mv, reps := r.2.1 },
          if varTaken then nextVarName st.vn else st.vn⟩
      else
        ⟨files2, st.mrecs.set mk { m with var := none, reps := r.2.1 }, st.vn⟩
    else st
  | _, _ => st

/-- The apply-existing-matches loop of `processFiles` (index.js 220-228):
every stored match, in key order, against the current file. -/
def applyKnown (st : SState) (fk : Nat) : SState :=
  (List.range st.mrecs.length).foldl (fun s mk => matchReplaceFile s mk fk) st

/-- The countdown loop of `findDuplicates` (index.js 507-517): `fk2c` is
`fileKey2 + 1` (zero ends the loop), `compared` counts non-skipped
comparisons toward `maxFileCompare`. -/
def findDupLoop (opts : RunOpts) (files : List FileRec) (a : Frags)
    (fk minLen : Nat) :
    Nat → Nat → List MatchRec → List Nat → List MatchRec × List Nat
  | 0, _, ms, nm => (ms, nm)
  | fk2c + 1, compared, ms, nm =>
    let fk2 := fk2c
    match files[fk2]? with
    | some f2 =>
      if ¬ f2.skip then
        let r := fragmentMatches ms nm a (f2.frags.getD []) fk fk2 minLen
        if opts.maxFileCompare ≠ 0 ∧ opts.maxFileCompare < compared + 1 then
          (r.1, r.2)
        else findDupLoop opts files a fk minLen fk2c (compared + 1) r.1 r.2
      else findDupLoop opts files a fk minLen fk2c compared ms nm
    | none => findDupLoop opts files a fk minLen fk2c compared ms nm

/-- Translation of `findDuplicates` (index.js 501-519): compare the current
file against itself and every earlier non-skipped file, newest first. -/
def findDuplicates (opts : RunOpts) (st : SState) (fk : Nat) :
    List MatchRec × List Nat :=
  let a := ((st.files[fk]?).bind (fun f => f.frags)).getD []
  let minLen := if opts.minLength ≠ 0 then opts.minLength
    else autoMinLength (dedupeOf opts) st.vn
  findDupLoop opts st.files a fk minLen (fk + 1) 0 st.mrecs []

/-- The callback of `processNewMatches` (index.js 258-267): `doReplace` over
every file in the match's occurrence map (JS iterates the integer keys in
ascending order), threading the match's replacement counter. -/
def replaceInFiles (files : List FileRec) (mstr mvar : Str) (keys : List Nat)
    (reps : Nat) : List FileRec × Nat :=
  keys.foldl (fun acc fk =>
    match acc.1[fk]? with
    | some f =>
      let r := doReplace (f.frags.getD []) mstr mvar acc.2 f.deduped
      (acc.1.set fk { f with frags := some r.1, deduped := r.2.2 }, r.2.1)
    | none => acc) (files, reps)

/-- One iteration of `processNewMatches` (index.js 251-269): recompute the
occurrence total and the memoized allowed decision, then run `matchReplace`
with the all-files callback. -/
def processOneNewMatch (opts : RunOpts) (st : SState) (mk : Nat) : SState :=
  match st.mrecs[mk]? with
  | none => st
  | some m0 =>
    let tot := occTotalOf m0.occ
    let alw := replacementAllowed (dedupeOf opts) st.vn ⟨m0.str.length, tot⟩
    let m1 := { m0 with occTotal := tot, allowed := alw }
    if m1.allowed then
      let varTaken := m1.var.isNone
      let mv := if varTaken then some st.vn else m1.var
      let keys := (List.range st.files.length).filter
        (fun k => (m1.occ.lookup k).isSome)
      let r := replaceInFiles st.files m1.str (mv.getD []) keys m1.reps
      if r.2 ≠ 0 then
        ⟨r.1, st.mrecs.set mk { m1 with var := mv, reps := r.2 },
          if varTaken then nextVarName st.vn else st.vn⟩
      else
        ⟨r.1, st.mrecs.set mk { m1 with var := none, reps := r.2 }, st.vn⟩
    else ⟨st.files, st.mrecs.set mk m1, st.vn⟩

/-- Translation of `processNewMatches` (index.js 251-269). -/
def processNewMatches (opts : RunOpts) (st : SState) (nm : List Nat) : SState :=
  nm.foldl (processOneNewMatch opts) st

/-- The not-skipped/skipped text-file body of a pass (index.js 207-243),
after the skip flag `f1` of the current file has been determined:
fragmentation (pass 0), application of known matches, duplicate search and
new-match processing. -/
def processTextFile (opts : RunOpts) (pass fk : Nat) (content : Str)
    (st0 : SState) (f1 : FileRec) : SState :=
  let st1 := { st0 with files := st0.files.set fk f1 }
  if ¬ f1.skip then
    let f2 := if pass = 0 then
        { f1 with frags := some (createFragments opts.startsWith opts.endsWith
          (addSlashes content)) }
      else f1
    let st2 := { st1 with files := st1.files.set fk f2 }
    let st3 := applyKnown st2 fk
    let r := findDuplicates opts st3 fk
    let st4 := { st3 with mrecs := r.1 }
    processNewMatches opts st4 r.2
  else st1

/-- The per-file body of `processFiles` (index.js 196-244) after the file
record exists: non-text files are left alone; for text files, pass 0 runs
the content-sniff skip determination. -/
def processFileCore (opts : RunOpts) (pass fk : Nat) (content : Str)
    (st0 : SState) : SState :=
  match st0.files[fk]? with
  | none => st0
  | some f0 =>
    if f0.ftype = FType.text then
      processTextFile opts pass fk content st0
        (if pass = 0 then determineTextFileSkip opts f0 content else f0)
    else st0

/-- One file of one pass of `processFiles` (index.js 183-245), with the
modeled options (dedupe on, manipulations off): pass 0 first creates the
file record (`createFileTrack`). -/
def processOneFile (opts : RunOpts) (inputs : List InFile) (pass fk : Nat)
    (st : SState) : SState :=
  let inf := inputs.getD fk ⟨[], false, FType.text⟩
  let st0 := if pass = 0 then { st with files := st.files ++ [createFileTrack inf] }
    else st
  processFileCore opts pass fk inf.content st0

/-- Translation of the pass loop of `processFiles` (index.js 183-246),
starting from the initial session (`varName = 'a'`, empty stores). -/
def processFiles (opts : RunOpts) (inputs : List InFile) : SState :=
  (List.range opts.passes).foldl
    (fun st pass => (List.range inputs.length).foldl
      (fun st2 fk => processOneFile opts inputs pass fk st2) st)
    ⟨[], [], ['a']⟩

/-- Global literal replacement (`replaceAll`, index.js 430-433: the pattern
is regex-escaped so the regex replace is a plain left-to-right substring
replacement); `fuel = s.length` suffices since each step consumes at least
one character. -/
def replaceAllSub (pat rep : Str) : Nat → Str → Str
  | 0, s => s
  | fuel + 1, s =>
    match s with
    | [] => []
    | c :: cs =>
      if pat ≠ [] ∧ pat.isPrefixOf (c :: cs) then
        rep ++ replaceAllSub pat rep fuel ((c :: cs).drop pat.length)
      else c :: replaceAllSub pat rep fuel cs

/-- Translation of `replaceAll` (index.js 430-433). -/
def replaceAll (s pat rep : Str) : Str := replaceAllSub pat rep s.length s

/-- Translation of `fixCodes` (index.js 423-428): drop the degenerate
`.''` and `''.` artifacts. -/
def fixCodes (s : Str) : Str :=
  replaceAll (replaceAll s ['.', '\'', '\''] []) ['\'', '\'', '.'] []

/-- Translation of `prepend` (index.js 450-456): the inclusion statement,
with one `../` per nesting level. -/
def prependStr (vFile : Str) (up : Nat) : Str :=
  "<?php include '".data ++ (List.replicate up "../".data).flatten ++ vFile
    ++ "';echo '".data

/-- Translation of `append` (index.js 463-466). -/
def appendStr : Str := "';".data

/-- Translation of `createOutFiles` (index.js 308-340) restricted to the
content each output file receives: a deduped file gets the wrapped, cleaned
concatenation of its final fragments; directories, binaries, and
non-deduped text files keep their input content byte for byte. -/
def createOutFiles (inputs : List InFile) (st : SState) : List Str :=
  (List.range inputs.length).map (fun fk =>
    let f := (st.files[fk]?).getD ⟨false, FType.text, none, false⟩
    let inf := inputs.getD fk ⟨[], false, FType.text⟩
    if f.deduped then
      fixCodes (prependStr "v.php".data 0 ++ (f.frags.getD []).flatten ++ appendStr)
    else inf.content)

/-! ## The skip invariant (C9)

A file record whose skip flag is set never participates: its fragment
sequence is never created, it is never marked deduped, no occurrence is
recorded under its key, and its output is its input content.  The proof
is an invariant induction over the orchestrator folds. -/

theorem foldl_inv_mem {σ α : Type} (g : σ → α → σ) (P : σ → Prop) :
    ∀ (l : List α), (∀ s a, a ∈ l → P s → P (g s a)) → ∀ s, P s → P (l.foldl g s)
  | [], _, _, hs => hs
  | x :: xs, h, s, hs =>
    foldl_inv_mem g P xs (fun s' a ha => h s' a (List.mem_cons_of_mem _ ha))
      (g s x) (h s x (List.mem_cons_self _ _) hs)

theorem addOcc_lookup_ne (occ : List (Nat × List Nat)) (name pos k : Nat)
    (hk : k ≠ name) : (addOcc occ name pos).lookup k = occ.lookup k := by
  have hb : (k == name) = false := by simpa using hk
  induction occ with
  | nil => simp [addOcc, List.lookup, hb]
  | cons p rest ih =>
    obtain ⟨k0, l⟩ := p
    simp only [addOcc]
    by_cases h0 : k0 = name
    · subst h0
      by_cases hp : pos ∈ l
      · simp [hp]
      · simp [hp, List.lookup, hb]
    · simp only [if_neg h0]
      by_cases hkk : k = k0
      · subst hkk; simp [List.lookup]
      · have hb2 : (k == k0) = false := by simpa using hkk
        simp [List.lookup, hb2, ih]

theorem addOcc_lookup_isSome (occ : List (Nat × List Nat)) (name pos k : Nat)
    (h : ((addOcc occ name pos).lookup k).isSome = true) :
    ((occ.lookup k).isSome = true) ∨ k = name := by
  by_cases hk : k = name
  · right; exact hk
  · left; rwa [addOcc_lookup_ne occ name pos k hk] at h

theorem lookupByStr_mem (ms : List MatchRec) (s : Str) :
    ∀ (k : Nat) (m : MatchRec), lookupByStr ms s = some (k, m) → m ∈ ms := by
  induction ms with
  | nil => intro k m h; simp [lookupByStr] at h
  | cons m0 rest ih =>
    intro k m h
    simp only [lookupByStr] at h
    by_cases h0 : m0.str = s
    · rw [if_pos h0] at h
      injection h with h
      injection h with h1 h2
      subst h2
      exact List.mem_cons_self _ _
    · rw [if_neg h0] at h
      cases hr : lookupByStr rest s with
      | none => rw [hr] at h; simp at h
      | some p =>
        rw [hr] at h
        simp only [Option.map_some'] at h
        injection h with h
        injection h with h1 h2
        subst h2
        exact List.mem_cons_of_mem _ (ih p.1 p.2 (by rw [hr]))

theorem addMatch_eq_found (ms : List MatchRec) (an ap bn bp : Nat) (s : Str)
    (k0 : Nat) (m : MatchRec) (h : lookupByStr ms s = some (k0, m)) :
    addMatch ms an ap bn bp s =
      (ms.set k0 { m with occ := addOcc (addOcc m.occ an ap) bn bp }, k0) := by
  unfold addMatch
  rw [h]

theorem addMatch_eq_new_ne (ms : List MatchRec) (an ap bn bp : Nat) (s : Str)
    (h : lookupByStr ms s = none) (hab : an ≠ bn) :
    addMatch ms an ap bn bp s =
      (ms ++ [mkMatch s [(an, [ap]), (bn, [bp])]], ms.length) := by
  unfold addMatch
  rw [h]
  simp [hab]

theorem addMatch_eq_new_eq (ms : List MatchRec) (an ap bn bp : Nat) (s : Str)
    (h : lookupByStr ms s = none) (hab : an = bn) :
    addMatch ms an ap bn bp s =
      (ms ++ [mkMatch s [(an, [ap, bp])]], ms.length) := by
  unfold addMatch
  rw [h]
  simp [hab]

/-- Keys of occurrence maps after `addMatch`: every key was already present
in some record or is one of the two compared names. -/
theorem addMatch_keys (ms : List MatchRec) (an ap bn bp : Nat) (s : Str) :
    ∀ m' ∈ (addMatch ms an ap bn bp s).1, ∀ k,
      ((m'.occ.lookup k).isSome = true) →
      (∃ m ∈ ms, (m.occ.lookup k).isSome = true) ∨ k = an ∨ k = bn := by
  intro m' hm' k hk
  by_cases h1 : k = an
  · exact Or.inr (Or.inl h1)
  by_cases h2 : k = bn
  · exact Or.inr (Or.inr h2)
  have hb1 : (k == an) = false := by simpa using h1
  have hb2 : (k == bn) = false := by simpa using h2
  cases hls : lookupByStr ms s with
  | some p =>
    obtain ⟨k0, m⟩ := p
    rw [addMatch_eq_found ms an ap bn bp s k0 m hls] at hm'
    rcases List.mem_or_eq_of_mem_set hm' with h | h
    · exact Or.inl ⟨m', h, hk⟩
    · subst h
      simp only at hk
      rw [addOcc_lookup_ne _ bn bp k h2, addOcc_lookup_ne _ an ap k h1] at hk
      exact Or.inl ⟨m, lookupByStr_mem ms s k0 m hls, hk⟩
  | none =>
    by_cases hab : an = bn
    · rw [addMatch_eq_new_eq ms an ap bn bp s hls hab] at hm'
      rcases List.mem_append.mp hm' with h | h
      · exact Or.inl ⟨m', h, hk⟩
      · simp only [List.mem_singleton] at h
        subst h
        simp [mkMatch, List.lookup, hb1] at hk
    · rw [addMatch_eq_new_ne ms an ap bn bp s hls hab] at hm'
      rcases List.mem_append.mp hm' with h | h
      · exact Or.inl ⟨m', h, hk⟩
      · simp only [List.mem_singleton] at h
        subst h
        simp [mkMatch, List.lookup, hb1, hb2] at hk

theorem innerJ_keys (a b : Frags) (aName bName mn : Nat) :
    ∀ (fuel i j : Nat) (ms : List MatchRec) (nm : List Nat),
      ∀ m' ∈ (innerJ a b aName bName mn fuel i j ms nm).1, ∀ k,
        ((m'.occ.lookup k).isSome = true) →
        (∃ m ∈ ms, (m.occ.lookup k).isSome = true) ∨ k = aName ∨ k = bName := by
  intro fuel
  induction fuel with
  | zero =>
    intro i j ms nm m' hm' k hk
    exact Or.inl ⟨m', hm', hk⟩
  | succ fuel ih =>
    intro i j ms nm m' hm' k hk
    simp only [innerJ] at hm'
    by_cases h1 : j < b.length
    case neg =>
      rw [if_neg h1] at hm'
      exact Or.inl ⟨m', hm', hk⟩
    rw [if_pos h1] at hm'
    by_cases h2 : (aName ≠ bName ∨ i ≠ j) ∧ a.getD i [] = b.getD j []
    case neg =>
      rw [if_neg h2] at hm'
      exact ih _ _ ms nm m' hm' k hk
    rw [if_pos h2] at hm'
    rcases hE : extendRun a b i j a.length 1 (a.getD i []) with ⟨ek, es⟩
    simp only [hE] at hm'
    by_cases h3 : mn ≤ es.length
    case neg =>
      rw [if_neg h3] at hm'
      exact ih _ _ ms nm m' hm' k hk
    rw [if_pos h3] at hm'
    rcases hA : addMatch ms aName i bName j es with ⟨ms2, key⟩
    simp only [hA] at hm'
    rcases ih _ _ ms2 _ m' hm' k hk with ⟨m, hm, hk2⟩ | h | h
    · have := addMatch_keys ms aName i bName j es m (by rw [hA]; exact hm) k hk2
      exact this
    · exact Or.inr (Or.inl h)
    · exact Or.inr (Or.inr h)

theorem outerI_keys (a b : Frags) (aName bName mn : Nat) :
    ∀ (fuel i : Nat) (ms : List MatchRec) (nm : List Nat),
      ∀ m' ∈ (outerI a b aName bName mn fuel i ms nm).1, ∀ k,
        ((m'.occ.lookup k).isSome = true) →
        (∃ m ∈ ms, (m.occ.lookup k).isSome = true) ∨ k = aName ∨ k = bName := by
  intro fuel
  induction fuel with
  | zero =>
    intro i ms nm m' hm' k hk
    exact Or.inl ⟨m', hm', hk⟩
  | succ fuel ih =>
    intro i ms nm m' hm' k hk
    simp only [outerI] at hm'
    by_cases h1 : i < a.length
    case neg =>
      rw [if_neg h1] at hm'
      exact Or.inl ⟨m', hm', hk⟩
    rw [if_pos h1] at hm'
    rcases hI : innerJ a b aName bName mn (b.length + 1) i 0 ms nm with ⟨ms2, nm2, i2⟩
    simp only [hI] at hm'
    rcases ih _ ms2 nm2 m' hm' k hk with ⟨m, hm, hk2⟩ | h | h
    · exact innerJ_keys a b aName bName mn (b.length + 1) i 0 ms nm m
        (by rw [hI]; exact hm) k hk2
    · exact Or.inr (Or.inl h)
    · exact Or.inr (Or.inr h)

theorem fragmentMatches_keys (ms : List MatchRec) (nm : List Nat) (a b : Frags)
    (aName bName mn : Nat) :
    ∀ m' ∈ (fragmentMatches ms nm a b aName bName mn).1, ∀ k,
      ((m'.occ.lookup k).isSome = true) →
      (∃ m ∈ ms, (m.occ.lookup k).isSome = true) ∨ k = aName ∨ k = bName :=
  outerI_keys a b aName bName mn (a.length + 1) 0 ms nm

theorem findDupLoop_keys (opts : RunOpts) (files : List FileRec) (a : Frags)
    (fk minLen : Nat) :
    ∀ (fk2c compared : Nat) (ms : List MatchRec) (nm : List Nat),
      ∀ m' ∈ (findDupLoop opts files a fk minLen fk2c compared ms nm).1, ∀ k,
        ((m'.occ.lookup k).isSome = true) →
        (∃ m ∈ ms, (m.occ.lookup k).isSome = true) ∨ k = fk ∨
          (∃ f2, files[k]? = some f2 ∧ f2.skip = false) := by
  intro fk2c
  induction fk2c with
  | zero =>
    intro compared ms nm m' hm' k hk
    exact Or.inl ⟨m', hm', hk⟩
  | succ fk2c ih =>
    intro compared ms nm m' hm' k hk
    simp only [findDupLoop] at hm'
    cases hf2 : files[fk2c]? with
    | none =>
      simp only [hf2] at hm'
      exact ih compared ms nm m' hm' k hk
    | some f2 =>
      simp only [hf2] at hm'
      by_cases hs : ¬ f2.skip
      · rw [if_pos hs] at hm'
        rcases hr : fragmentMatches ms nm a (f2.frags.getD []) fk fk2c minLen
          with ⟨ms2, nm2⟩
        simp only [hr] at hm'
        have step : ∀ m ∈ ms2, ((m.occ.lookup k).isSome = true) →
            (∃ m0 ∈ ms, (m0.occ.lookup k).isSome = true) ∨ k = fk ∨
              (∃ f3, files[k]? = some f3 ∧ f3.skip = false) := by
          intro m hm hk2
          rcases fragmentMatches_keys ms nm a (f2.frags.getD []) fk fk2c minLen m
            (by rw [hr]; exact hm) k hk2 with h | h | h
          · exact Or.inl h
          · exact Or.inr (Or.inl h)
          · subst h
            exact Or.inr (Or.inr ⟨f2, hf2, by simpa using hs⟩)
        by_cases hc : opts.maxFileCompare ≠ 0 ∧ opts.maxFileCompare < compared + 1
        · rw [if_pos hc] at hm'
          exact step m' hm' hk
        · rw [if_neg hc] at hm'
          rcases ih (compared + 1) ms2 nm2 m' hm' k hk with ⟨m, hm, hk2⟩ | h | h
          · exact step m hm hk2
          · exact Or.inr (Or.inl h)
          · exact Or.inr (Or.inr h)
      · rw [if_neg hs] at hm'
        exact ih compared ms nm m' hm' k hk

theorem matchReplaceFile_facts (st : SState) (mk fk : Nat) :
    (matchReplaceFile st mk fk).files.length = st.files.length ∧
      (∀ k, k ≠ fk → (matchReplaceFile st mk fk).files[k]? = st.files[k]?) ∧
      (((matchReplaceFile st mk fk).files[fk]?).map FileRec.skip
        = (st.files[fk]?).map FileRec.skip) ∧
      (∀ m' ∈ (matchReplaceFile st mk fk).mrecs, ∃ m ∈ st.mrecs, m'.occ = m.occ) := by
  unfold matchReplaceFile
  split
  · rename_i m f hm hf
    have hflt : fk < st.files.length := by
      rw [List.getElem?_eq_some] at hf
      exact hf.1
    split
    · dsimp only
      repeat' split
      all_goals
        exact ⟨by simp, fun k hk => List.getElem?_set_ne (by omega),
          by rw [List.getElem?_set_eq hflt, hf]; rfl,
          fun m' hm' => by
            rcases List.mem_or_eq_of_mem_set hm' with h | h
            · exact ⟨m', h, rfl⟩
            · exact ⟨m, List.getElem?_mem hm, by rw [h]⟩⟩
    · exact ⟨rfl, fun k _ => rfl, rfl, fun m' hm' => ⟨m', hm', rfl⟩⟩
  · exact ⟨rfl, fun k _ => rfl, rfl, fun m' hm' => ⟨m', hm', rfl⟩⟩

theorem applyKnown_facts (st : SState) (fk : Nat) :
    (applyKnown st fk).files.length = st.files.length ∧
      (∀ k, k ≠ fk → (applyKnown st fk).files[k]? = st.files[k]?) ∧
      (((applyKnown st fk).files[fk]?).map FileRec.skip
        = (st.files[fk]?).map FileRec.skip) ∧
      (∀ m' ∈ (applyKnown st fk).mrecs, ∃ m ∈ st.mrecs, m'.occ = m.occ) := by
  unfold applyKnown
  refine foldl_inv_mem (fun s mk => matchReplaceFile s mk fk)
    (fun s' => s'.files.length = st.files.length ∧
      (∀ k, k ≠ fk → s'.files[k]? = st.files[k]?) ∧
      ((s'.files[fk]?).map FileRec.skip = (st.files[fk]?).map FileRec.skip) ∧
      (∀ m' ∈ s'.mrecs, ∃ m ∈ st.mrecs, m'.occ = m.occ))
    (List.range st.mrecs.length) ?_ st
    ⟨rfl, fun _ _ => rfl, rfl, fun m' hm' => ⟨m', hm', rfl⟩⟩
  intro s' mk _ hP
  obtain ⟨h1, h2, h3, h4⟩ := hP
  obtain ⟨g1, g2, g3, g4⟩ := matchReplaceFile_facts s' mk fk
  refine ⟨by rw [g1, h1], fun k hk => by rw [g2 k hk, h2 k hk],
    by rw [g3, h3], ?_⟩
  intro m' hm'
  obtain ⟨m2, hm2, he⟩ := g4 m' hm'
  obtain ⟨m3, hm3, he2⟩ := h4 m2 hm2
  exact ⟨m3, hm3, by rw [he, he2]⟩

theorem replaceInFiles_facts (files : List FileRec) (mstr mvar : Str)
    (keys : List Nat) (reps : Nat) :
    (replaceInFiles files mstr mvar keys reps).1.length = files.length ∧
      (∀ k, k ∉ keys → (replaceInFiles files mstr mvar keys reps).1[k]? = files[k]?) ∧
      ∀ k : Nat, ((replaceInFiles files mstr mvar keys reps).1[k]?).map FileRec.skip
        = (files[k]?).map FileRec.skip := by
  unfold replaceInFiles
  refine foldl_inv_mem _
    (fun (acc : List FileRec × Nat) => acc.1.length = files.length ∧
      (∀ k, k ∉ keys → acc.1[k]? = files[k]?) ∧
      ∀ k : Nat, (acc.1[k]?).map FileRec.skip = (files[k]?).map FileRec.skip)
    keys ?_ (files, reps) ⟨rfl, fun _ _ => rfl, fun _ => rfl⟩
  intro acc a ha hP
  obtain ⟨h1, h2, h3⟩ := hP
  cases hf : acc.1[a]? with
  | none => simpa [hf] using ⟨h1, h2, h3⟩
  | some f =>
    have halt : a < acc.1.length := by
      rw [List.getElem?_eq_some] at hf
      exact hf.1
    simp only [hf]
    refine ⟨by simp [h1], ?_, ?_⟩
    · intro k hk
      have hka : k ≠ a := fun he => hk (he ▸ ha)
      rw [List.getElem?_set_ne (by omega)]
      exact h2 k hk
    · intro k
      by_cases hka : k = a
      · subst hka
        rw [List.getElem?_set_eq halt]
        rw [← h3 k, hf]
        rfl
      · rw [List.getElem?_set_ne (by omega)]
        exact h3 k

theorem processOneNewMatch_facts (opts : RunOpts) (st : SState) (mk k : Nat)
    (hocc : ∀ m ∈ st.mrecs, m.occ.lookup k = none) :
    (processOneNewMatch opts st mk).files[k]? = st.files[k]? ∧
      (processOneNewMatch opts st mk).files.length = st.files.length ∧
      (∀ m' ∈ (processOneNewMatch opts st mk).mrecs, ∃ m ∈ st.mrecs, m'.occ = m.occ) := by
  unfold processOneNewMatch
  split
  · exact ⟨rfl, rfl, fun m' hm' => ⟨m', hm', rfl⟩⟩
  · rename_i m0 hm
    have hm0occ := hocc m0 (List.getElem?_mem hm)
    have hknot : k ∉ (List.range st.files.length).filter
        (fun k' => (m0.occ.lookup k').isSome) := by
      simp only [List.mem_filter]
      rintro ⟨-, habs⟩
      rw [hm0occ] at habs
      simp at habs
    dsimp only
    split
    · repeat' split
      all_goals
        refine ⟨(replaceInFiles_facts _ _ _ _ _).2.1 k hknot,
          (replaceInFiles_facts _ _ _ _ _).1,
          fun m' hm' => ?_⟩
      all_goals
        rcases List.mem_or_eq_of_mem_set hm' with h | h
        · exact ⟨m', h, rfl⟩
        · exact ⟨m0, List.getElem?_mem hm, by rw [h]⟩
    · refine ⟨rfl, rfl, fun m' hm' => ?_⟩
      rcases List.mem_or_eq_of_mem_set hm' with h | h
      · exact ⟨m', h, rfl⟩
      · exact ⟨m0, List.getElem?_mem hm, by rw [h]⟩

theorem processOneNewMatch_frame (opts : RunOpts) (st : SState) (mk : Nat) :
    (processOneNewMatch opts st mk).files.length = st.files.length ∧
      ∀ k : Nat, ((processOneNewMatch opts st mk).files[k]?).map FileRec.skip
        = (st.files[k]?).map FileRec.skip := by
  unfold processOneNewMatch
  split
  · exact ⟨rfl, fun _ => rfl⟩
  · rename_i m0 hm
    dsimp only
    split
    · repeat' split
      all_goals
        exact ⟨(replaceInFiles_facts _ _ _ _ _).1,
          fun k => (replaceInFiles_facts _ _ _ _ _).2.2 k⟩
    · exact ⟨rfl, fun _ => rfl⟩

theorem processNewMatches_frame (opts : RunOpts) (st : SState) (nm : List Nat) :
    (processNewMatches opts st nm).files.length = st.files.length ∧
      ∀ k : Nat, ((processNewMatches opts st nm).files[k]?).map FileRec.skip
        = (st.files[k]?).map FileRec.skip := by
  unfold processNewMatches
  refine foldl_inv_mem (processOneNewMatch opts)
    (fun s' => s'.files.length = st.files.length ∧
      ∀ k : Nat, (s'.files[k]?).map FileRec.skip
        = (st.files[k]?).map FileRec.skip)
    nm ?_ st ⟨rfl, fun _ => rfl⟩
  intro s' mk _ hP
  obtain ⟨h1, h2⟩ := hP
  obtain ⟨g1, g2⟩ := processOneNewMatch_frame opts s' mk
  exact ⟨by rw [g1, h1], fun k => by rw [g2 k, h2 k]⟩

theorem processNewMatches_facts (opts : RunOpts) (st : SState) (nm : List Nat)
    (k : Nat) (hocc : ∀ m ∈ st.mrecs, m.occ.lookup k = none) :
    (processNewMatches opts st nm).files[k]? = st.files[k]? ∧
      (∀ m' ∈ (processNewMatches opts st nm).mrecs,
        ∃ m ∈ st.mrecs, m'.occ = m.occ) := by
  unfold processNewMatches
  refine foldl_inv_mem (processOneNewMatch opts)
    (fun s' => s'.files[k]? = st.files[k]? ∧
      (∀ m' ∈ s'.mrecs, ∃ m ∈ st.mrecs, m'.occ = m.occ))
    nm ?_ st ⟨rfl, fun m' hm' => ⟨m', hm', rfl⟩⟩
  intro s' mk _ hP
  obtain ⟨h1, h2⟩ := hP
  have hocc' : ∀ m ∈ s'.mrecs, m.occ.lookup k = none := by
    intro m hm
    obtain ⟨m2, hm2, he⟩ := h2 m hm
    rw [he]
    exact hocc m2 hm2
  obtain ⟨g1, g2, g3⟩ := processOneNewMatch_facts opts s' mk k hocc'
  refine ⟨by rw [g1, h1], ?_⟩
  intro m' hm'
  obtain ⟨m2, hm2, he⟩ := g3 m' hm'
  obtain ⟨m3, hm3, he2⟩ := h2 m2 hm2
  exact ⟨m3, hm3, by rw [he, he2]⟩

/-- C9's invariant: a skip-flagged file has no fragments, is not deduped,
and owns no occurrence in any match record. -/
def SkipInv (st : SState) : Prop :=
  ∀ k f, st.files[k]? = some f → f.skip = true →
    f.frags = none ∧ f.deduped = false ∧
      ∀ m ∈ st.mrecs, m.occ.lookup k = none

/-- Occurrence keys always denote already-created files. -/
def OccBound (st : SState) : Prop :=
  ∀ m ∈ st.mrecs, ∀ k : Nat, ((m.occ.lookup k).isSome = true) →
    k < st.files.length

theorem processOneNewMatch_occs (opts : RunOpts) (st : SState) (mk : Nat) :
    ∀ m' ∈ (processOneNewMatch opts st mk).mrecs, ∃ m ∈ st.mrecs, m'.occ = m.occ := by
  unfold processOneNewMatch
  split
  · exact fun m' hm' => ⟨m', hm', rfl⟩
  · rename_i m0 hm
    dsimp only
    split
    · repeat' split
      all_goals
        intro m' hm'
        rcases List.mem_or_eq_of_mem_set hm' with h | h
        · exact ⟨m', h, rfl⟩
        · exact ⟨m0, List.getElem?_mem hm, by rw [h]⟩
    · intro m' hm'
      rcases List.mem_or_eq_of_mem_set hm' with h | h
      · exact ⟨m', h, rfl⟩
      · exact ⟨m0, List.getElem?_mem hm, by rw [h]⟩

theorem processNewMatches_occs (opts : RunOpts) (st : SState) (nm : List Nat) :
    ∀ m' ∈ (processNewMatches opts st nm).mrecs, ∃ m ∈ st.mrecs, m'.occ = m.occ := by
  unfold processNewMatches
  refine foldl_inv_mem (processOneNewMatch opts)
    (fun s' => ∀ m' ∈ s'.mrecs, ∃ m ∈ st.mrecs, m'.occ = m.occ)
    nm ?_ st (fun m' hm' => ⟨m', hm', rfl⟩)
  intro s' mk _ hP m' hm'
  obtain ⟨m2, hm2, he⟩ := processOneNewMatch_occs opts s' mk m' hm'
  obtain ⟨m3, hm3, he2⟩ := hP m2 hm2
  exact ⟨m3, hm3, by rw [he, he2]⟩

/-- Invariant through the apply-existing-matches stage. -/
theorem applyKnown_inv (st2 : SState) (fk : Nat)
    (hS : SkipInv st2) (hO : OccBound st2)
    (hfk : ((st2.files[fk]?).map FileRec.skip) = some false) :
    SkipInv (applyKnown st2 fk) ∧ OccBound (applyKnown st2 fk) ∧
      (applyKnown st2 fk).files.length = st2.files.length ∧
      ((applyKnown st2 fk).files[fk]?).map FileRec.skip = some false := by
  obtain ⟨g1, g2, g3, g4⟩ := applyKnown_facts st2 fk
  refine ⟨?_, ?_, g1, by rw [g3, hfk]⟩
  · intro k g hk hskip
    by_cases hkf : k = fk
    · subst hkf
      exfalso
      have hmap : ((applyKnown st2 k).files[k]?).map FileRec.skip = some true := by
        rw [hk]
        simp [hskip]
      rw [g3, hfk] at hmap
      simp at hmap
    · rw [g2 k hkf] at hk
      obtain ⟨a1, a2, a3⟩ := hS k g hk hskip
      refine ⟨a1, a2, ?_⟩
      intro m' hm'
      obtain ⟨m, hm, he⟩ := g4 m' hm'
      rw [he]
      exact a3 m hm
  · intro m' hm' k hk
    obtain ⟨m, hm, he⟩ := g4 m' hm'
    rw [he] at hk
    have := hO m hm k hk
    omega

/-- Invariant through the duplicate-search stage. -/
theorem findDuplicates_inv (opts : RunOpts) (st3 : SState) (fk : Nat)
    (hS : SkipInv st3) (hO : OccBound st3)
    (hfk : ((st3.files[fk]?).map FileRec.skip) = some false) :
    SkipInv { st3 with mrecs := (findDuplicates opts st3 fk).1 } ∧
      OccBound { st3 with mrecs := (findDuplicates opts st3 fk).1 } := by
  have hflt : fk < st3.files.length := by
    cases hf : st3.files[fk]? with
    | none => rw [hf] at hfk; simp at hfk
    | some f =>
      rw [List.getElem?_eq_some] at hf
      exact hf.1
  have hkeys := findDupLoop_keys opts st3.files
    (((st3.files[fk]?).bind (fun f => f.frags)).getD [])
    fk (if opts.minLength ≠ 0 then opts.minLength
      else autoMinLength (dedupeOf opts) st3.vn) (fk + 1) 0 st3.mrecs []
  constructor
  · intro k g hk hskip
    obtain ⟨a1, a2, a3⟩ := hS k g hk hskip
    refine ⟨a1, a2, ?_⟩
    intro m' hm'
    cases hl : m'.occ.lookup k with
    | none => rfl
    | some l =>
      exfalso
      have hsome : (m'.occ.lookup k).isSome = true := by rw [hl]; rfl
      rcases hkeys m' hm' k hsome with ⟨m, hm, hk2⟩ | h | ⟨f2, hf2, hsk⟩
      · have := a3 m hm
        rw [this] at hk2
        simp at hk2
      · subst h
        rw [hk] at hfk
        simp [hskip] at hfk
      · rw [hk] at hf2
        injection hf2 with hf2
        subst hf2
        rw [hskip] at hsk
        cases hsk
  · intro m' hm' k hk
    rcases hkeys m' hm' k hk with ⟨m, hm, hk2⟩ | h | ⟨f2, hf2, hsk⟩
    · exact hO m hm k hk2
    · subst h
      exact hflt
    · rw [List.getElem?_eq_some] at hf2
      exact hf2.1

/-- Invariant through the new-match processing stage. -/
theorem processNewMatches_inv (opts : RunOpts) (st4 : SState) (nm : List Nat)
    (hS : SkipInv st4) (hO : OccBound st4) :
    SkipInv (processNewMatches opts st4 nm) ∧
      OccBound (processNewMatches opts st4 nm) ∧
      (processNewMatches opts st4 nm).files.length = st4.files.length := by
  obtain ⟨g1, g2⟩ := processNewMatches_frame opts st4 nm
  refine ⟨?_, ?_, g1⟩
  · intro k g hk hskip
    have hmap : ((st4.files[k]?).map FileRec.skip) = some true := by
      rw [← g2 k, hk]
      simp [hskip]
    cases hf4 : st4.files[k]? with
    | none => rw [hf4] at hmap; simp at hmap
    | some g4 =>
      rw [hf4] at hmap
      simp only [Option.map_some'] at hmap
      injection hmap with hmap
      obtain ⟨a1, a2, a3⟩ := hS k g4 hf4 hmap
      obtain ⟨b1, b2⟩ := processNewMatches_facts opts st4 nm k a3
      rw [b1, hf4] at hk
      injection hk with hk
      subst hk
      refine ⟨a1, a2, ?_⟩
      intro m' hm'
      obtain ⟨m, hm, he⟩ := b2 m' hm'
      rw [he]
      exact a3 m hm
  · intro m' hm' k hk
    obtain ⟨m, hm, he⟩ := processNewMatches_occs opts st4 nm m' hm'
    rw [he] at hk
    have := hO m hm k hk
    omega

/-- Setting a non-skipped record preserves the invariant. -/
theorem set_nonskip_inv (st : SState) (fk : Nat) (f : FileRec)
    (hS : SkipInv st) (hO : OccBound st) (hns : f.skip = false)
    (hflt : fk < st.files.length) :
    SkipInv { st with files := st.files.set fk f } ∧
      OccBound { st with files := st.files.set fk f } ∧
      ({ st with files := st.files.set fk f } : SState).files[fk]? = some f := by
  refine ⟨?_, ?_, by simpa using List.getElem?_set_eq hflt⟩
  · intro k g hk hskip
    by_cases hkf : k = fk
    · subst hkf
      simp only at hk
      rw [List.getElem?_set_eq hflt] at hk
      injection hk with hk
      subst hk
      rw [hns] at hskip
      cases hskip
    · simp only at hk
      rw [List.getElem?_set_ne (by omega)] at hk
      exact hS k g hk hskip
  · intro m hm k hk
    have := hO m hm k hk
    simp only [List.length_set]
    omega

/-- Invariant through the text-file body, given the determined skip flag. -/
theorem processTextFile_inv (opts : RunOpts) (pass fk : Nat) (content : Str)
    (st0 : SState) (f1 : FileRec)
    (hS : SkipInv st0) (hO : OccBound st0) (hflt : fk < st0.files.length)
    (hf1 : f1.skip = true → f1.frags = none ∧ f1.deduped = false ∧
      ∀ m ∈ st0.mrecs, m.occ.lookup fk = none) :
    SkipInv (processTextFile opts pass fk content st0 f1) ∧
      OccBound (processTextFile opts pass fk content st0 f1) ∧
      (processTextFile opts pass fk content st0 f1).files.length
        = st0.files.length := by
  unfold processTextFile
  split
  · -- current file not skipped
    rename_i hns
    have hns' : f1.skip = false := by
      cases hsk : f1.skip
      · rfl
      · exact absurd hsk hns
    obtain ⟨s1, o1, e1⟩ := set_nonskip_inv st0 fk f1 hS hO hns' hflt
    have hlen1 : ({ st0 with files := st0.files.set fk f1 } : SState).files.length
        = st0.files.length := by simp
    have hf2ns : (if pass = 0 then
        { f1 with frags := some (createFragments opts.startsWith opts.endsWith
          (addSlashes content)) } else f1).skip = false := by
      by_cases hp : pass = 0 <;> simp [hp, hns']
    obtain ⟨s2, o2, e2⟩ := set_nonskip_inv _ fk _ s1 o1 hf2ns (by rw [hlen1]; omega)
    have hmap2 : ((({ st0 with files := st0.files.set fk f1 } : SState).files.set fk
        (if pass = 0 then
          { f1 with frags := some (createFragments opts.startsWith opts.endsWith
            (addSlashes content)) } else f1))[fk]?).map FileRec.skip = some false := by
      rw [List.getElem?_set_eq (by simpa using hflt)]
      simp [hf2ns]
    obtain ⟨s3, o3, e3, m3⟩ := applyKnown_inv _ fk s2 o2 (by simpa using hmap2)
    obtain ⟨s4, o4⟩ := findDuplicates_inv opts _ fk s3 o3 m3
    obtain ⟨s5, o5, e5⟩ := processNewMatches_inv opts _ _ s4 o4
    refine ⟨s5, o5, ?_⟩
    rw [e5]
    simp only at e3 ⊢
    rw [e3]
    simp
  · -- current file skipped: only its record is stored back
    rename_i hsk
    have hskip : f1.skip = true := by
      cases h : f1.skip
      · rw [h] at hsk; simp at hsk
      · rfl
    obtain ⟨a1, a2, a3⟩ := hf1 hskip
    refine ⟨?_, ?_, by simp⟩
    · intro k g hk hskip2
      by_cases hkf : k = fk
      · subst hkf
        simp only at hk
        rw [List.getElem?_set_eq hflt] at hk
        injection hk with hk
        subst hk
        exact ⟨a1, a2, a3⟩
      · simp only at hk
        rw [List.getElem?_set_ne (by omega)] at hk
        exact hS k g hk hskip2
    · intro m hm k hk
      have := hO m hm k hk
      simp only [List.length_set]
      omega

/-- Invariant through one file of one pass (`processFileCore`). -/
theorem processFileCore_inv (opts : RunOpts) (pass fk : Nat) (content : Str)
    (st0 : SState) (hS : SkipInv st0) (hO : OccBound st0)
    (hocc0 : pass = 0 → ∀ m ∈ st0.mrecs, m.occ.lookup fk = none)
    (hfr0 : pass = 0 → ∀ g, st0.files[fk]? = some g →
      g.frags = none ∧ g.deduped = false) :
    SkipInv (processFileCore opts pass fk content st0) ∧
      OccBound (processFileCore opts pass fk content st0) ∧
      (processFileCore opts pass fk content st0).files.length
        = st0.files.length := by
  unfold processFileCore
  split
  · exact ⟨hS, hO, rfl⟩
  · rename_i f0 hf0
    have hflt : fk < st0.files.length := by
      rw [List.getElem?_eq_some] at hf0
      exact hf0.1
    split
    · apply processTextFile_inv opts pass fk content st0 _ hS hO hflt
      intro hsk
      by_cases hp : pass = 0
      · rw [if_pos hp] at hsk ⊢
        have hpres : (determineTextFileSkip opts f0 content).frags = f0.frags ∧
            (determineTextFileSkip opts f0 content).deduped = f0.deduped := by
          unfold determineTextFileSkip
          split
          · exact ⟨rfl, rfl⟩
          · exact ⟨rfl, rfl⟩
        obtain ⟨e1, e2⟩ := hfr0 hp f0 hf0
        exact ⟨hpres.1.trans e1, hpres.2.trans e2, hocc0 hp⟩
      · rw [if_neg hp] at hsk ⊢
        exact hS fk f0 hf0 hsk
    · exact ⟨hS, hO, rfl⟩

/-- Appending a fresh file record (pass 0 `createFileTrack`) preserves the
invariant. -/
theorem append_inv (st : SState) (f : FileRec) (hS : SkipInv st)
    (hO : OccBound st) (hfr : f.frags = none) (hdd : f.deduped = false) :
    SkipInv { st with files := st.files ++ [f] } ∧
      OccBound { st with files := st.files ++ [f] } := by
  constructor
  · intro k g hk hskip
    simp only at hk
    by_cases hlt : k < st.files.length
    · rw [List.getElem?_append_left hlt] at hk
      exact hS k g hk hskip
    · by_cases heq : k = st.files.length
      · subst heq
        rw [List.getElem?_concat_length] at hk
        injection hk with hk
        subst hk
        refine ⟨hfr, hdd, ?_⟩
        intro m hm
        cases hl : m.occ.lookup st.files.length with
        | none => rfl
        | some l =>
          have := hO m hm st.files.length (by rw [hl]; rfl)
          omega
      · rw [List.getElem?_eq_none (by simp; omega)] at hk
        cases hk
  · intro m hm k hk
    have := hO m hm k hk
    simp only [List.length_append]
    omega

/-- Invariant and length bookkeeping through one file of one pass. -/
theorem processOneFile_inv (opts : RunOpts) (inputs : List InFile)
    (pass fk : Nat) (st : SState) (hS : SkipInv st) (hO : OccBound st)
    (hlen : pass = 0 → st.files.length = fk) :
    SkipInv (processOneFile opts inputs pass fk st) ∧
      OccBound (processOneFile opts inputs pass fk st) ∧
      (processOneFile opts inputs pass fk st).files.length
        = st.files.length + (if pass = 0 then 1 else 0) := by
  unfold processOneFile
  dsimp only
  by_cases hp : pass = 0
  · rw [if_pos hp]
    obtain ⟨s0, o0⟩ := append_inv st
      (createFileTrack (inputs.getD fk ⟨[], false, FType.text⟩)) hS hO rfl rfl
    have hocc0 : ∀ m ∈ st.mrecs, m.occ.lookup fk = none := by
      intro m hm
      cases hl : m.occ.lookup fk with
      | none => rfl
      | some l =>
        have := hO m hm fk (by rw [hl]; rfl)
        have := hlen hp
        omega
    have hfr : ∀ g, ({ st with files := st.files ++ [createFileTrack
        (inputs.getD fk ⟨[], false, FType.text⟩)] } : SState).files[fk]? = some g →
        g.frags = none ∧ g.deduped = false := by
      intro g hg
      simp only at hg
      rw [← hlen hp, List.getElem?_concat_length] at hg
      injection hg with hg
      subst hg
      exact ⟨rfl, rfl⟩
    obtain ⟨a1, a2, a3⟩ := processFileCore_inv opts pass fk
      (inputs.getD fk ⟨[], false, FType.text⟩).content
      { st with files := st.files ++ [createFileTrack
        (inputs.getD fk ⟨[], false, FType.text⟩)] } s0 o0
      (fun _ => hocc0)
      (fun _ => hfr)
    refine ⟨a1, a2, ?_⟩
    rw [a3]
    simp [hp]
  · rw [if_neg hp]
    obtain ⟨a1, a2, a3⟩ := processFileCore_inv opts pass fk
      (inputs.getD fk ⟨[], false, FType.text⟩).content st hS hO
      (fun h => absurd h hp) (fun h => absurd h hp)
    exact ⟨a1, a2, by rw [a3]; simp [hp]⟩

/-- Invariant through the per-pass file fold. -/
theorem innerFold_inv (opts : RunOpts) (inputs : List InFile) (pass : Nat) :
    ∀ (n start : Nat) (st : SState), SkipInv st → OccBound st →
      (pass = 0 → st.files.length = start) →
      SkipInv ((List.range' start n).foldl
        (fun s fk => processOneFile opts inputs pass fk s) st) ∧
      OccBound ((List.range' start n).foldl
        (fun s fk => processOneFile opts inputs pass fk s) st) ∧
      ((List.range' start n).foldl
        (fun s fk => processOneFile opts inputs pass fk s) st).files.length
        = st.files.length + (if pass = 0 then n else 0) := by
  intro n
  induction n with
  | zero =>
    intro start st hS hO _
    simp only [List.range', List.foldl_nil]
    exact ⟨hS, hO, by simp⟩
  | succ n ih =>
    intro start st hS hO hlen
    rw [List.range'_succ, List.foldl_cons]
    obtain ⟨a1, a2, a3⟩ := processOneFile_inv opts inputs pass start st hS hO hlen
    obtain ⟨b1, b2, b3⟩ := ih (start + 1)
      (processOneFile opts inputs pass start st) a1 a2
      (by intro hp; rw [a3, hlen hp]; simp [hp])
    refine ⟨b1, b2, ?_⟩
    rw [b3, a3]
    by_cases hp : pass = 0 <;> simp [hp] <;> try omega

/-- The whole orchestrator run preserves the invariant. -/
theorem processFiles_inv (opts : RunOpts) (inputs : List InFile) :
    SkipInv (processFiles opts inputs) ∧ OccBound (processFiles opts inputs) := by
  unfold processFiles
  have hinit : SkipInv (⟨[], [], ['a']⟩ : SState) ∧
      OccBound (⟨[], [], ['a']⟩ : SState) := by
    constructor
    · intro k g hk
      simp at hk
    · intro m hm
      simp at hm
  cases hcase : opts.passes with
  | zero =>
    simp only [List.range_zero, List.foldl_nil]
    exact hinit
  | succ n =>
    have hr : List.range (n + 1) = 0 :: List.range' 1 n := by
      rw [List.range_eq_range']
      rfl
    rw [hr, List.foldl_cons]
    obtain ⟨a1, a2, a3⟩ := innerFold_inv opts inputs 0 inputs.length 0
      ⟨[], [], ['a']⟩ hinit.1 hinit.2 (fun _ => rfl)
    rw [← List.range_eq_range'] at a1 a2
    refine foldl_inv_mem _ (fun st => SkipInv st ∧ OccBound st)
      (List.range' 1 n) ?_ _ ⟨a1, a2⟩
    intro st pass hmem hP
    have hp : pass ≠ 0 := by
      have := List.mem_range'_1.mp hmem
      omega
    obtain ⟨b1, b2, b3⟩ := innerFold_inv opts inputs pass inputs.length 0 st
      hP.1 hP.2 (fun h => absurd h hp)
    rw [← List.range_eq_range'] at b1 b2
    exact ⟨b1, b2⟩

/-- C9: a file record whose skip flag ends up true never participated: its
fragment sequence was never created, it was never marked deduped, no match
record holds an occurrence under its key, and its emitted output is its
input content byte for byte. -/
theorem skip_never_participates (opts : RunOpts) (inputs : List InFile)
    (k : Nat) (f : FileRec)
    (hf : (processFiles opts inputs).files[k]? = some f)
    (hskip : f.skip = true) :
    f.frags = none ∧ f.deduped = false ∧
      (∀ m ∈ (processFiles opts inputs).mrecs, m.occ.lookup k = none) ∧
      (k < inputs.length →
        (createOutFiles inputs (processFiles opts inputs))[k]?
          = some ((inputs.getD k ⟨[], false, FType.text⟩).content)) := by
  obtain ⟨hS, hO⟩ := processFiles_inv opts inputs
  obtain ⟨a1, a2, a3⟩ := hS k f hf hskip
  refine ⟨a1, a2, a3, ?_⟩
  intro hk
  unfold createOutFiles
  rw [List.getElem?_map, List.getElem?_range hk]
  simp only [Option.map_some']
  rw [hf]
  simp only [Option.getD_some, a2]
  rfl

/-- Witness for C9: a two-file run where the first file contains the
configured `<?` marker; it is skipped and its output equals its input. -/
theorem skip_never_participates_witness :
    (createOutFiles
        [⟨"<?x".data, false, FType.text⟩, ⟨"ab>ab>".data, false, FType.text⟩]
        (processFiles ⟨2, ["<?".data], ['<'], ['>'], 3, 1, 0, 1000⟩
          [⟨"<?x".data, false, FType.text⟩,
            ⟨"ab>ab>".data, false, FType.text⟩]))[0]?
      = some "<?x".data :=
  (skip_never_participates ⟨2, ["<?".data], ['<'], ['>'], 3, 1, 0, 1000⟩
    [⟨"<?x".data, false, FType.text⟩, ⟨"ab>ab>".data, false, FType.text⟩]
    0 ⟨true, FType.text, none, false⟩ (by decide) rfl).2.2.2 (by decide)

end Webarchiver
